import Mathlib

/-!
Shallow embedding of the kraber interpreter (src/src/main.rs) and proofs about it.

Modelling conventions:
* Rust `usize` / `isize` are modelled as `Nat` / `Int`; the two's-complement
  reinterpretation performed by Rust `as` casts is made explicit (`natToI64`,
  `intToU64`) and the saturating float-to-integer casts are modelled by
  truncation plus clamping (`ratToU64`, `ratToI64`).
* Rust `f64` is idealised as `Rat` (exact rational arithmetic); `f64::powf`
  is modelled only at integer exponents, which is the only use the claims need.
* `HashMap<String, Variable>` is modelled as an association list with
  HashMap-style insert/remove; all theorems about memory go through `mlookup`.
* Rust `panic!` sites become `Except.error` with the error kind the spec's
  taxonomy assigns to that site (TypeError / ArgError / NameError / ParseError,
  plus `boundsError` for slice-index panics and `outOfFuel` for the fuel that
  makes the (possibly divergent) interpreter loops total).
* The built-in `fn` pointers stored in `Data::KraberFunction` are
  defunctionalised into the `Builtin` tag of the nine functions that
  `init_memory` installs; `applyBuiltin` dispatches exactly their bodies.
-/

namespace Kraber

/-- The nine built-in intrinsics installed by `Interpreter::init_memory`. -/
inductive Builtin where
  | equal | lt | nand | add | multiply | raise | floor | join | push
deriving DecidableEq, Repr

mutual
/-- `enum Data` from main.rs.  The Rust constructor `Type` is spelled `Typ`
because `Type` is a Lean keyword; `KraberFunction` carries the defunctionalised
tag of its `fn` pointer. -/
inductive Data where
  | Main : Data
  | Declare : Data
  | Assign : Data
  | While : Data
  | Expression : Data
  | KraberFunction : Builtin → Data
  | FunctionContainer : List String → List Data → List Data → Data
  | Function : List String → List Data → List Data → List Node → Data
  | Return : Data
  | Identifier : String → Data
  | Typ : String → Data
  | Null : Data
  | Whole : Nat → Data
  | Integer : Int → Data
  | Float : Rat → Data
  | Boolean : Bool → Data
  | Text : String → Data
  | List : List Data → List Data → Data

/-- `struct Node { id, data, nodes }` from main.rs. -/
inductive Node where
  | mk : Nat → Data → List Node → Node
end

def Node.id : Node → Nat
  | .mk i _ _ => i

def Node.data : Node → Data
  | .mk _ d _ => d

def Node.nodes : Node → List Node
  | .mk _ _ ns => ns

/-- Error kinds, following the spec's taxonomy (section 7) for the `panic!`
sites of main.rs, plus bookkeeping kinds for slice-index panics and fuel. -/
inductive Err where
  | typeError | argError | nameError | parseError | boundsError | outOfFuel
deriving DecidableEq, Repr

/-- `stringify_enum`: the Rust function Debug-formats the variant and lowercases
the first word, which yields exactly the lowercased variant name; we embed that
observable result directly. -/
def stringify_enum : Data → String
  | .Main => "main"
  | .Declare => "declare"
  | .Assign => "assign"
  | .While => "while"
  | .Expression => "expression"
  | .KraberFunction _ => "kraberfunction"
  | .FunctionContainer _ _ _ => "functioncontainer"
  | .Function _ _ _ _ => "function"
  | .Return => "return"
  | .Identifier _ => "identifier"
  | .Typ _ => "type"
  | .Null => "null"
  | .Whole _ => "whole"
  | .Integer _ => "integer"
  | .Float _ => "float"
  | .Boolean _ => "boolean"
  | .Text _ => "text"
  | .List _ _ => "list"

/-- `expect_type` (panic ↦ TypeError: a non-`Type` in a `Type` slot). -/
def expect_type : Data → Except Err String
  | .Typ name => .ok name
  | _ => .error .typeError

/-- `expect_boolean` (panic ↦ ArgError: intrinsic argument type mismatch). -/
def expect_boolean : Data → Except Err Bool
  | .Boolean value => .ok value
  | _ => .error .argError

/-- `expect_numeric` (panic ↦ ArgError). -/
def expect_numeric : Data → Except Err Rat
  | .Whole value => .ok (value : Rat)
  | .Integer value => .ok (value : Rat)
  | .Float value => .ok value
  | _ => .error .argError

/-- `expect_text` (panic ↦ ArgError). -/
def expect_text : Data → Except Err String
  | .Text value => .ok value
  | _ => .error .argError

/-- Truncation toward zero of a rational, as Rust float-to-integer casts do
(`Int.tdiv` is division truncating toward zero; the denominator is positive). -/
def ratTrunc (q : Rat) : Int :=
  q.num.tdiv q.den

/-- Rust `f as usize`: truncate toward zero, saturating into `[0, 2^64-1]`. -/
def ratToU64 (q : Rat) : Nat :=
  min (ratTrunc q).toNat (2 ^ 64 - 1)

/-- Rust `f as isize`: truncate toward zero, saturating into `[-2^63, 2^63-1]`. -/
def ratToI64 (q : Rat) : Int :=
  max (-(2 ^ 63)) (min (ratTrunc q) (2 ^ 63 - 1))

/-- Rust `w as isize` (usize → isize two's-complement reinterpretation). -/
def natToI64 (w : Nat) : Int :=
  if w % 2 ^ 64 < 2 ^ 63 then ((w % 2 ^ 64 : Nat) : Int)
  else ((w % 2 ^ 64 : Nat) : Int) - 2 ^ 64

/-- Rust `i as usize` (isize → usize two's-complement reinterpretation). -/
def intToU64 (i : Int) : Nat :=
  (i % 2 ^ 64).toNat

/-- Rust `str::repeat`. -/
def strRepeat (s : String) (n : Nat) : String :=
  String.join (List.replicate n s)

/-- The adjacent-pairs check of `equal` (`args.windows(2).all(...)`); like
`Iterator::all` it stops at the first unequal pair without touching later
arguments. -/
def equalPairs : List Data → Except Err Bool
  | a :: b :: rest => do
    let na ← expect_numeric a
    let nb ← expect_numeric b
    if na = nb then equalPairs (b :: rest) else .ok false
  | _ => .ok true

/-- Built-in `equal`. -/
def equal (args : List Data) : Except Err Data :=
  (equalPairs args).map Data.Boolean

/-- Built-in `lt` (arity-2 panic ↦ ArgError). -/
def lt : List Data → Except Err Data
  | [a, b] => do
    let na ← expect_numeric a
    let nb ← expect_numeric b
    .ok (.Boolean (decide (na < nb)))
  | _ => .error .argError

/-- Built-in `nand` (arity-2 panic ↦ ArgError). -/
def nand : List Data → Except Err Data
  | [a, b] => do
    let ba ← expect_boolean a
    let bb ← expect_boolean b
    .ok (.Boolean (!(ba && bb)))
  | _ => .error .argError

/-- The accumulator loop of `add`. -/
def addGo (sum : Rat) : List Data → Except Err Rat
  | [] => .ok sum
  | arg :: rest => do
    let num ← expect_numeric arg
    addGo (sum + num) rest

/-- Built-in `add`. -/
def add (args : List Data) : Except Err Data :=
  (addGo 0 args).map Data.Float

/-- The accumulator loop of `multiply`: while `text_string` is still empty the
first `Text` argument is captured (and skipped from the product), every other
argument must be numeric and multiplies the product. -/
def multiplyGo (ts : String) (product : Rat) : List Data → Except Err (String × Rat)
  | [] => .ok (ts, product)
  | arg :: rest =>
    if ts = "" then
      match arg with
      | .Text value => multiplyGo value product rest
      | a =>
        match expect_numeric a with
        | .error e => .error e
        | .ok num => multiplyGo ts (product * num) rest
    else
      match expect_numeric arg with
      | .error e => .error e
      | .ok num => multiplyGo ts (product * num) rest

/-- Built-in `multiply`. -/
def multiply (args : List Data) : Except Err Data :=
  (multiplyGo "" 1 args).map fun p =>
    if p.1 = "" then .Float p.2 else .Text (strRepeat p.1 (ratToU64 p.2))

/-- `f64::powf`, modelled at integer exponents only (no claim exercises a
fractional exponent; those are idealised as 0). -/
def powRat (a b : Rat) : Rat :=
  if b.den = 1 then a ^ b.num else 0

/-- Built-in `raise` (arity-2 panic ↦ ArgError). -/
def raise : List Data → Except Err Data
  | [a, b] => do
    let na ← expect_numeric a
    let nb ← expect_numeric b
    .ok (.Float (powRat na nb))
  | _ => .error .argError

/-- Built-in `floor` (arity-1 panic ↦ ArgError). -/
def floor : List Data → Except Err Data
  | [a] => do
    let na ← expect_numeric a
    .ok (.Integer (ratToI64 na))
  | _ => .error .argError

/-- The accumulator loop of `join`. -/
def joinGo (acc : String) : List Data → Except Err String
  | [] => .ok acc
  | arg :: rest => do
    let s ← expect_text arg
    joinGo (acc ++ s) rest

/-- Built-in `join`. -/
def join (args : List Data) : Except Err Data :=
  (joinGo "" args).map Data.Text

/-- `data_types.iter().map(|x| expect_type(x.clone())).collect()` in `push`. -/
def collectTypeNames : List Data → Except Err (List String)
  | [] => .ok []
  | d :: rest =>
    match expect_type d with
    | .error e => .error e
    | .ok n =>
      match collectTypeNames rest with
      | .error e => .error e
      | .ok ns => .ok (n :: ns)

/-- Built-in `push`.  `args[0]` must be a `List` (the `"sus"` panic ↦ ArgError:
`push` onto a non-list); the type tag of `args[1]` must occur among the list's
declared element type names (panic ↦ ArgError). -/
def push (args : List Data) : Except Err Data :=
  match args.get? 0 with
  | none => .error .boundsError
  | some a0 =>
    match a0 with
    | .List data_types value =>
      match collectTypeNames data_types with
      | .error e => .error e
      | .ok collection =>
        match args.get? 1 with
        | none => .error .boundsError
        | some a1 =>
          if collection.contains (stringify_enum a1) then
            .ok (.List data_types (value ++ [a1]))
          else
            .error .argError
    | _ => .error .argError

/-- Dispatch of the defunctionalised `fn` pointers of `KraberFunction`. -/
def applyBuiltin : Builtin → List Data → Except Err Data
  | .equal, args => equal args
  | .lt, args => lt args
  | .nand, args => nand args
  | .add, args => add args
  | .multiply, args => multiply args
  | .raise, args => raise args
  | .floor, args => floor args
  | .join, args => join args
  | .push, args => push args

mutual
/-- The derived `PartialEq` of `Data` (used by the list-subtype check in the
`Assign` branch and the `!= Data::Null` test of `loop_while`). -/
def dataBeq : Data → Data → Bool
  | .Main, .Main => true
  | .Declare, .Declare => true
  | .Assign, .Assign => true
  | .While, .While => true
  | .Expression, .Expression => true
  | .KraberFunction a, .KraberFunction b => a == b
  | .FunctionContainer p t r, .FunctionContainer p' t' r' =>
      p == p' && dataListBeq t t' && dataListBeq r r'
  | .Function p t r b, .Function p' t' r' b' =>
      p == p' && dataListBeq t t' && dataListBeq r r' && nodeListBeq b b'
  | .Return, .Return => true
  | .Identifier a, .Identifier b => a == b
  | .Typ a, .Typ b => a == b
  | .Null, .Null => true
  | .Whole a, .Whole b => a == b
  | .Integer a, .Integer b => a == b
  | .Float a, .Float b => a == b
  | .Boolean a, .Boolean b => a == b
  | .Text a, .Text b => a == b
  | .List d v, .List d' v' => dataListBeq d d' && dataListBeq v v'
  | _, _ => false

def dataListBeq : List Data → List Data → Bool
  | [], [] => true
  | x :: xs, y :: ys => dataBeq x y && dataListBeq xs ys
  | _, _ => false

def nodeBeq : Node → Node → Bool
  | .mk i d ns, .mk i' d' ns' => i == i' && dataBeq d d' && nodeListBeq ns ns'

def nodeListBeq : List Node → List Node → Bool
  | [], [] => true
  | x :: xs, y :: ys => nodeBeq x y && nodeListBeq xs ys
  | _, _ => false
end

/-- `variable.value != Data::Null` specialised: the only observable content of
that comparison is whether the value is `Null`. -/
def Data.isNull : Data → Bool
  | .Null => true
  | _ => false

/-- `struct Variable { value, data_type }`. -/
structure Variable where
  value : Data
  data_type : Data

/-- `HashMap<String, Variable>` as an association list. -/
def Memory := List (String × Variable)

/-- `HashMap::get`. -/
def mlookup : Memory → String → Option Variable
  | [], _ => none
  | (k', v) :: rest, k => if k' = k then some v else mlookup rest k

/-- `HashMap::insert` (replace the binding if the key is present, append it
otherwise). -/
def minsert : Memory → String → Variable → Memory
  | [], k, v => [(k, v)]
  | (k', v') :: rest, k, v =>
      if k' = k then (k, v) :: rest else (k', v') :: minsert rest k v

/-- `HashMap::remove`. -/
def mremove (m : Memory) (k : String) : Memory :=
  m.filter fun e => decide (e.1 ≠ k)

/-- `Interpreter::filter_memory`: remove every local from the memory. -/
def filterMemory (m : Memory) (locals : List String) : Memory :=
  locals.foldl (fun acc l => if (mlookup acc l).isSome then mremove acc l else acc) m

@[simp] theorem mlookup_minsert (m : Memory) (k k' : String) (v : Variable) :
    mlookup (minsert m k v) k' = if k' = k then some v else mlookup m k' := by
  induction m with
  | nil =>
    by_cases h : k' = k
    · subst h
      simp [minsert, mlookup]
    · have h' : ¬ k = k' := fun hh => h hh.symm
      simp [minsert, mlookup, h, h']
  | cons e rest ih =>
    obtain ⟨ek, ev⟩ := e
    simp only [minsert]
    by_cases h1 : ek = k
    · subst h1
      rw [if_pos rfl]
      by_cases h2 : k' = ek
      · subst h2
        simp [mlookup]
      · have h2' : ¬ ek = k' := fun hh => h2 hh.symm
        simp [mlookup, h2, h2']
    · rw [if_neg h1]
      by_cases h2 : ek = k'
      · subst h2
        simp [mlookup, h1]
      · simp [mlookup, h2, ih]

@[simp] theorem mlookup_mremove (m : Memory) (k k' : String) :
    mlookup (mremove m k) k' = if k' = k then none else mlookup m k' := by
  induction m with
  | nil =>
    by_cases h : k' = k <;> simp [mremove, mlookup, h]
  | cons e rest ih =>
    obtain ⟨ek, ev⟩ := e
    by_cases h1 : ek = k
    · subst h1
      rw [show mremove ((ek, ev) :: rest) ek = mremove rest ek from by
        simp [mremove, List.filter_cons]]
      rw [ih]
      by_cases h2 : k' = ek
      · simp [h2]
      · have h2' : ¬ ek = k' := fun hh => h2 hh.symm
        simp [mlookup, h2, h2']
    · rw [show mremove ((ek, ev) :: rest) k = (ek, ev) :: mremove rest k from by
        simp [mremove, List.filter_cons, h1]]
      simp only [mlookup, ih]
      by_cases h2 : ek = k'
      · subst h2
        simp [h1]
      · simp [h2]

theorem mlookup_filterMemory (ls : List String) (m : Memory) (k : String) :
    mlookup (filterMemory m ls) k = if k ∈ ls then none else mlookup m k := by
  induction ls generalizing m with
  | nil => simp [filterMemory]
  | cons l rest ih =>
    have step : filterMemory m (l :: rest) =
        filterMemory (if (mlookup m l).isSome then mremove m l else m) rest := by
      simp [filterMemory, List.foldl]
    rw [step, ih]
    by_cases h1 : k ∈ rest
    · simp [h1]
    · by_cases h2 : k = l
      · subst h2
        cases hval : mlookup m k <;> simp [h1, hval]
      · have : ¬ k ∈ l :: rest := by simp [h1, h2]
        cases hval : mlookup m l <;> simp [h1, h2, this, hval]

@[simp] theorem filterMemory_nil (m : Memory) : filterMemory m [] = m := rfl

/-- Interpreter state: `memory` and `locals` of `struct Interpreter` (the tree
is passed around as the statement list being walked). -/
structure InterpState where
  memory : Memory
  locals : List String

/-- The coercion logic of the `Assign` branch of `Interpreter::interpret`
(main.rs lines 880-969), factored over the variable being assigned and the
evaluated right-hand value.  Panics are mapped per the spec taxonomy:
`could not cast` / `expected Data::Type` / `expected Data::List` /
`mismatched subtypes` ↦ TypeError, negative-to-whole casts ↦ ArgError. -/
def assignCoerce (vbl : Variable) (value : Data) : Except Err Data :=
  match vbl.data_type with
  | .Typ name =>
    let type_name := stringify_enum value
    if name ≠ type_name then
      match value with
      | .Float q =>
        match name with
        | "whole" =>
          if q < 0 then .error .argError else .ok (.Whole (ratToU64 q))
        | "integer" => .ok (.Integer (ratToI64 q))
        | _ => .error .typeError
      | .Integer i =>
        match name with
        | "whole" =>
          if i < 0 then .error .argError else .ok (.Whole (intToU64 i))
        | "float" => .ok (.Float (i : Rat))
        | _ => .error .typeError
      | .Whole w =>
        match name with
        | "integer" => .ok (.Integer (natToI64 w))
        | "float" => .ok (.Float (w : Rat))
        | _ => .error .typeError
      | _ => .error .typeError
    else if name = "list" then
      match vbl.value with
      | .List type_vector _ =>
        match value with
        | .List data_types vals =>
          if dataListBeq type_vector data_types then .ok (.List data_types vals)
          else .error .typeError
        | _ => .error .typeError
      | _ => .error .typeError
    else .ok value
  | _ => .error .typeError

/-- The parameter-binding loop of the `Function` branch of `eval_expression`:
`memory.insert(param, Variable { value: args[i], data_type: param_types[i] })`
for each parameter, collecting the parameters as the sub-interpreter's locals.
`none` models the index-out-of-range panics when `param_types` or `args` are
shorter than `params`. -/
def bindParams : List String → List Data → List Data → Memory →
    Option (Memory × List String)
  | [], _, _, mem => some (mem, [])
  | p :: ps, pt :: pts, a :: rest, mem =>
      (bindParams ps pts rest (minsert mem p ⟨a, pt⟩)).map fun r => (r.1, p :: r.2)
  | _ :: _, _, _, _ => none

/-- Initial value of a `Declare`d variable: `Null` for every type name except
`"list"`, which starts as an empty list carrying the child `Type` nodes. -/
def declareInit (tyname : String) (typeChildren : List Node) : Data :=
  if tyname = "list" then .List (typeChildren.map Node.data) [] else .Null

mutual
/-- `Interpreter::eval_expression`.  The expression node's single child
(`expression.nodes[0]`) is the root of the sub-expression. -/
def evalExpression : Nat → InterpState → Node → Except Err (InterpState × Data)
  | 0, _, _ => .error .outOfFuel
  | fuel + 1, st, expr =>
    match expr.nodes.get? 0 with
    | none => .error .boundsError
    | some child =>
      match child.data with
      | .Identifier name =>
        match mlookup st.memory name with
        | none => .error .nameError
        | some var =>
          match var.value with
          | .KraberFunction tag =>
            match evalArgs fuel st child.nodes with
            | .error e => .error e
            | .ok (st', args) =>
              match applyBuiltin tag args with
              | .error e => .error e
              | .ok d => .ok (st', d)
          | .Function params param_types return_types body =>
            match evalArgs fuel st child.nodes with
            | .error e => .error e
            | .ok (st', args) =>
              match bindParams params param_types args st'.memory with
              | none => .error .boundsError
              | some (mem, plocals) =>
                match return_types.get? 0 with
                | none => .error .boundsError
                | some rt =>
                  match interpretNodes fuel
                      ⟨minsert mem "return" ⟨.Null, rt⟩, plocals⟩ body with
                  | .error e => .error e
                  | .ok subSt =>
                    let fmem := filterMemory subSt.memory subSt.locals
                    match mlookup fmem "return" with
                    | none => .error .nameError
                    | some rv => .ok (⟨fmem, st'.locals⟩, rv.value)
          | _ => .ok (st, var.value)
      | .FunctionContainer params param_types return_types =>
        .ok (st, .Function params param_types return_types child.nodes)
      | d => .ok (st, d)

/-- The argument map of `eval_expression`: an `Identifier` child is wrapped in
its own `Expression` node and recursively evaluated (so calls compose), any
other child contributes its `data` unevaluated.  Evaluation is left to right,
threading the interpreter state. -/
def evalArgs : Nat → InterpState → List Node → Except Err (InterpState × List Data)
  | 0, _, _ => .error .outOfFuel
  | fuel + 1, st, nodes =>
    match nodes with
    | [] => .ok (st, [])
    | x :: rest =>
      match x.data with
      | .Identifier _ =>
        match evalExpression fuel st (.mk 0 .Expression [x]) with
        | .error e => .error e
        | .ok (st', v) =>
          match evalArgs fuel st' rest with
          | .error e => .error e
          | .ok (st'', vs) => .ok (st'', v :: vs)
      | d =>
        match evalArgs fuel st rest with
        | .error e => .error e
        | .ok (st', vs) => .ok (st', d :: vs)

/-- `Interpreter::interpret`: walk the statement nodes in order.  A `Return`
statement (or a `While` whose `loop_while` returns true) stops the walk. -/
def interpretNodes : Nat → InterpState → List Node → Except Err InterpState
  | 0, _, _ => .error .outOfFuel
  | fuel + 1, st, stmts =>
    match stmts with
    | [] => .ok st
    | node :: rest =>
      match node.data with
      | .While =>
        match node.nodes with
        | [] => .error .boundsError
        | guard :: body =>
          match loopWhile fuel st guard body with
          | .error e => .error e
          | .ok (st', escaped) =>
            if escaped then .ok st' else interpretNodes fuel st' rest
      | .Return =>
        match evalExpression fuel st (.mk 0 .Expression node.nodes) with
        | .error e => .error e
        | .ok (st', value) =>
          match mlookup st'.memory "return" with
          | none => .error .nameError
          | some slot =>
            .ok ⟨minsert st'.memory "return" ⟨value, slot.data_type⟩, st'.locals⟩
      | .Declare =>
        match node.nodes.get? 0 with
        | none => .error .boundsError
        | some c0 =>
          match c0.data with
          | .Identifier name =>
            match node.nodes.get? 1 with
            | none => .error .boundsError
            | some tnode =>
              match tnode.data with
              | .Typ tyname =>
                interpretNodes fuel
                  ⟨minsert st.memory name ⟨declareInit tyname tnode.nodes, .Typ tyname⟩,
                    st.locals ++ [name]⟩ rest
              | _ => .error .typeError
          | _ => interpretNodes fuel st rest
      | .Assign =>
        match node.nodes.get? 0 with
        | none => .error .boundsError
        | some c0 =>
          match c0.data with
          | .Identifier name =>
            match mlookup st.memory name with
            | none => .error .nameError
            | some vbl =>
              match node.nodes.get? 1 with
              | none => .error .boundsError
              | some rhs =>
                match evalExpression fuel st (.mk 0 .Expression [rhs]) with
                | .error e => .error e
                | .ok (st', value) =>
                  match assignCoerce vbl value with
                  | .error e => .error e
                  | .ok value' =>
                    interpretNodes fuel
                      ⟨minsert st'.memory name ⟨value', vbl.data_type⟩,
                        st'.locals⟩ rest
          | _ => interpretNodes fuel st rest
      | .Text _ => interpretNodes fuel st rest
      | .Identifier name =>
        match mlookup st.memory name with
        | none => .error .nameError
        | some var =>
          match var.value with
          | .KraberFunction _ =>
            match evalExpression fuel st (.mk 0 .Expression [node]) with
            | .error e => .error e
            | .ok (st', _) => interpretNodes fuel st' rest
          | _ => interpretNodes fuel st rest
      | _ => interpretNodes fuel st rest

/-- `Interpreter::loop_while`: the sub-interpreter is created from the caller's
memory before the guard is first evaluated (on the caller); the boolean result
is the `true`/`false` the Rust function returns (should the outer frame also
return?). -/
def loopWhile : Nat → InterpState → Node → List Node → Except Err (InterpState × Bool)
  | 0, _, _, _ => .error .outOfFuel
  | fuel + 1, st, guard, body =>
    match evalExpression fuel st guard with
    | .error e => .error e
    | .ok (st', v) =>
      match v with
      | .Boolean condition => whileIter fuel st' ⟨st.memory, []⟩ guard body condition
      | _ => .error .typeError

/-- The `while condition { ... }` loop of `loop_while`: run the body on the
sub-interpreter, re-evaluate the guard on the sub-interpreter, then check the
sub-memory's `"return"` slot; a non-`Null` slot replaces the caller's memory
with the sub-memory and returns `true`.  On normal exit the caller's memory is
replaced by the sub-interpreter's filtered memory. -/
def whileIter : Nat → InterpState → InterpState → Node → List Node → Bool →
    Except Err (InterpState × Bool)
  | 0, _, _, _, _, _ => .error .outOfFuel
  | fuel + 1, st, sub, guard, body, condition =>
    if condition then
      match interpretNodes fuel sub body with
      | .error e => .error e
      | .ok sub' =>
        match evalExpression fuel sub' guard with
        | .error e => .error e
        | .ok (sub'', v) =>
          match v with
          | .Boolean condition' =>
            match mlookup sub''.memory "return" with
            | some slot =>
              if slot.value.isNull then
                whileIter fuel st sub'' guard body condition'
              else .ok (⟨sub''.memory, st.locals⟩, true)
            | none => whileIter fuel st sub'' guard body condition'
          | _ => .error .typeError
    else
      .ok (⟨filterMemory sub.memory sub.locals, st.locals⟩, false)
end

/-! ### Helper notions used by the theorems -/

/-- The numeric `Data` variants (the domain of `expect_numeric`). -/
def isNum : Data → Bool
  | .Whole _ => true
  | .Integer _ => true
  | .Float _ => true
  | _ => false

/-- The rational carried by a numeric value (junk 0 elsewhere; only used under
`isNum` hypotheses). -/
def numVal : Data → Rat
  | .Whole w => (w : Rat)
  | .Integer i => (i : Rat)
  | .Float q => q
  | _ => 0

/-- Product of the numeric values of a list. -/
def prodNums : List Data → Rat
  | [] => 1
  | a :: rest => numVal a * prodNums rest

theorem expect_numeric_isNum {a : Data} (h : isNum a = true) :
    expect_numeric a = .ok (numVal a) := by
  cases a <;> simp_all [isNum, numVal, expect_numeric]

theorem multiplyGo_cons_numeric {a : Data} (ha : isNum a = true)
    (ts : String) (p : Rat) (rest : List Data) :
    multiplyGo ts p (a :: rest) = multiplyGo ts (p * numVal a) rest := by
  have hnum := expect_numeric_isNum ha
  by_cases hts : ts = ""
  · cases a <;> simp_all [multiplyGo, isNum]
  · cases a <;> simp_all [multiplyGo, isNum]

theorem multiplyGo_append_numeric (pre : List Data)
    (h : ∀ a ∈ pre, isNum a = true) (rest : List Data) (ts : String) (p : Rat) :
    multiplyGo ts p (pre ++ rest) = multiplyGo ts (p * prodNums pre) rest := by
  induction pre generalizing p with
  | nil => simp [prodNums]
  | cons a pre' ih =>
    rw [List.cons_append, multiplyGo_cons_numeric (h a (by simp)),
      ih (fun b hb => h b (by simp [hb]))]
    rw [mul_assoc]
    rfl

theorem collectTypeNames_map (tys : List String) :
    collectTypeNames (tys.map Data.Typ) = .ok tys := by
  induction tys with
  | nil => rfl
  | cons t ts ih => simp [collectTypeNames, expect_type, ih]

/-! ### C7 -/

/-- C7: `push(L, x)` is pure in this embedding (its arguments are never
mutated); for a list whose declared `data_types` are `Type` nodes it returns a
new `List` with the same `data_types` and `x` appended exactly when the type
tag of `x` occurs among the declared element type names, it fails with
`ArgError` when the tag does not occur, and it fails with `ArgError` when the
first argument is not a `List`. -/
theorem push_appends_when_tag_declared (tys : List String) (elems : List Data)
    (x : Data) :
    (stringify_enum x ∈ tys →
      push [.List (tys.map Data.Typ) elems, x] =
        .ok (.List (tys.map Data.Typ) (elems ++ [x])))
  ∧ (stringify_enum x ∉ tys →
      push [.List (tys.map Data.Typ) elems, x] = .error .argError)
  ∧ (∀ v : Data, (∀ dts el, v ≠ .List dts el) → push [v, x] = .error .argError) := by
  refine ⟨?_, ?_, ?_⟩
  · intro h
    simp [push, collectTypeNames_map, h]
  · intro h
    simp [push, collectTypeNames_map, h]
  · intro v hv
    cases v <;> first
      | rfl
      | exact absurd rfl (hv _ _)

/-- Witness for C7 at concrete inputs. -/
theorem push_appends_when_tag_declared_witness :
    push [.List [Data.Typ "whole"] [.Whole 1], .Whole 2] =
      .ok (.List [Data.Typ "whole"] [.Whole 1, .Whole 2])
  ∧ push [.List [Data.Typ "whole"] [], .Text "hi"] = .error .argError
  ∧ push [.Null, .Whole 1] = .error .argError := by
  refine ⟨?_, ?_, ?_⟩
  · exact (push_appends_when_tag_declared ["whole"] [.Whole 1] (.Whole 2)).1
      (by simp [stringify_enum])
  · exact (push_appends_when_tag_declared ["whole"] [] (.Text "hi")).2.1
      (by simp [stringify_enum])
  · exact (push_appends_when_tag_declared ["whole"] [] (.Whole 1)).2.2 .Null
      (fun dts el h => Data.noConfusion h)

/-! ### C8 -/

/-- C8 counterexample: the claim says that when the first argument is not a
`Text` value, `multiply` returns the float product of all arguments; but
`multiply` captures the first `Text` argument found anywhere while the
accumulator is still empty.  On `[Whole 2, Text "ab"]` the first argument is
not `Text`, yet the result is the text `"abab"`, not a float. -/
theorem multiply_late_text_not_float :
    multiply [.Whole 2, .Text "ab"] = .ok (.Text "abab")
  ∧ (∀ s : String, (Data.Whole 2) ≠ .Text s)
  ∧ (∀ q : Rat, (Except.ok (Data.Text "abab") : Except Err Data) ≠ .ok (.Float q)) := by
  have e1 : multiply [.Whole 2, .Text "ab"] =
      .ok (.Text (strRepeat "ab" (ratToU64 ((1 : Rat) * ((2 : Nat) : Rat))))) := rfl
  have e2 : (1 : Rat) * ((2 : Nat) : Rat) = 2 := by norm_num
  rw [e2] at e1
  have e3 : strRepeat "ab" (ratToU64 2) = "abab" := by decide
  rw [e3] at e1
  refine ⟨e1, fun s h => Data.noConfusion h, fun q h => ?_⟩
  exact Data.noConfusion (Except.ok.inj h)

/-- C8 (amended): `multiply` returns the first nonempty `Text` argument
repeated by the product of the numeric arguments around it (truncated to
unsigned), and the float product of all arguments when all are numeric. -/
theorem multiply_text_repeat_or_product (pre post : List Data) (t : String)
    (hpre : ∀ a ∈ pre, isNum a = true) (hpost : ∀ a ∈ post, isNum a = true)
    (ht : t ≠ "") :
    multiply (pre ++ .Text t :: post) =
      .ok (.Text (strRepeat t (ratToU64 (prodNums pre * prodNums post))))
  ∧ (∀ args : List Data, (∀ a ∈ args, isNum a = true) →
      multiply args = .ok (.Float (prodNums args))) := by
  constructor
  · have h1 := multiplyGo_append_numeric pre hpre (.Text t :: post) "" 1
    rw [one_mul] at h1
    have hstep : multiplyGo "" (prodNums pre) (.Text t :: post) =
        multiplyGo t (prodNums pre) post := by
      simp [multiplyGo]
    have h2 : multiplyGo t (prodNums pre) post =
        .ok (t, prodNums pre * prodNums post) := by
      have h3 := multiplyGo_append_numeric post hpost [] t (prodNums pre)
      rw [List.append_nil] at h3
      rw [h3]
      rfl
    simp only [multiply]
    rw [h1, hstep, h2]
    simp [Except.map, ht]
  · intro args hargs
    have h1 := multiplyGo_append_numeric args hargs [] "" 1
    rw [one_mul, List.append_nil] at h1
    simp only [multiply]
    rw [h1]
    rfl

/-- Witness for C8: the spec's own examples, plus an all-numeric product. -/
theorem multiply_text_repeat_or_product_witness :
    multiply [.Text "ab", .Whole 3] = .ok (.Text "ababab")
  ∧ multiply [.Text "x", .Whole 0] = .ok (.Text "")
  ∧ multiply [.Whole 2, .Whole 3] = .ok (.Float 6) := by
  refine ⟨?_, ?_, ?_⟩
  · have h := (multiply_text_repeat_or_product [] [.Whole 3] "ab"
      (fun a ha => absurd ha (List.not_mem_nil a))
      (fun a ha => by simp at ha; subst ha; rfl)
      (by decide)).1
    have e : prodNums [] * prodNums [.Whole 3] = 3 := by
      norm_num [prodNums, numVal]
    rw [e] at h
    have e2 : strRepeat "ab" (ratToU64 3) = "ababab" := by decide
    rw [e2] at h
    exact h
  · have h := (multiply_text_repeat_or_product [] [.Whole 0] "x"
      (fun a ha => absurd ha (List.not_mem_nil a))
      (fun a ha => by simp at ha; subst ha; rfl)
      (by decide)).1
    have e : prodNums [] * prodNums [.Whole 0] = 0 := by
      norm_num [prodNums, numVal]
    rw [e] at h
    have e2 : strRepeat "x" (ratToU64 0) = "" := by decide
    rw [e2] at h
    exact h
  · have h := (multiply_text_repeat_or_product [] [] "z"
      (fun a ha => absurd ha (List.not_mem_nil a))
      (fun a ha => absurd ha (List.not_mem_nil a))
      (by decide)).2 [.Whole 2, .Whole 3]
      (fun a ha => by simp at ha; rcases ha with h1 | h1 <;> (subst h1; rfl))
    have e : prodNums [.Whole 2, .Whole 3] = 6 := by
      norm_num [prodNums, numVal]
    rw [e] at h
    exact h

/-! ### C1 -/

/-- The source/target pairs the `Assign` coercion matrix converts (everything
else with a differing tag fails). -/
def matrixCase : Data → String → Bool
  | .Whole _, tn => tn = "integer" || tn = "float"
  | .Integer _, tn => tn = "whole" || tn = "float"
  | .Float _, tn => tn = "whole" || tn = "integer"
  | _, _ => false

/-- C1 counterexample: the claim says whole-to-integer conversion is exact, but
`whole as isize` reinterprets the bits: executing `set x to 9223372036854775808`
(that is `2^63`, a valid `usize` literal) on a variable declared `integer`
stores `-2^63`, not `2^63`. -/
theorem assign_whole_to_integer_wraps :
    interpretNodes 2 ⟨[("x", ⟨.Null, .Typ "integer"⟩)], []⟩
      [Node.mk 0 .Assign
        [Node.mk 0 (.Identifier "x") [], Node.mk 1 (.Whole (2 ^ 63)) []]] =
      .ok ⟨[("x", ⟨.Integer (-(2 ^ 63)), .Typ "integer"⟩)], []⟩
  ∧ (-(2 ^ 63) : Int) ≠ ((2 ^ 63 : Nat) : Int) := by
  exact ⟨rfl, by decide⟩

/-- C1 (amended): the numeric coercion matrix of the `Assign` branch.
Whole-to-integer converts by two's-complement reinterpretation (exact below
`2^63`); whole-to-float and integer-to-float are exact (floats being idealised
as rationals); integer-to-whole and float-to-whole fail with ArgError on a
negative value and otherwise convert (float truncating toward zero, saturating
at the unsigned bound); float-to-integer truncates toward zero (saturating);
every other cross-tag combination fails with TypeError; whole values below
`2^63` round-trip exactly through the coerced assignment. -/
theorem assign_coercion_matrix (old : Data) (w : Nat) (i : Int) (q : Rat) :
    (assignCoerce ⟨old, .Typ "integer"⟩ (.Whole w) = .ok (.Integer (natToI64 w)))
  ∧ (w < 2 ^ 63 →
      assignCoerce ⟨old, .Typ "integer"⟩ (.Whole w) = .ok (.Integer (w : Int)))
  ∧ (assignCoerce ⟨old, .Typ "float"⟩ (.Whole w) = .ok (.Float (w : Rat)))
  ∧ (assignCoerce ⟨old, .Typ "float"⟩ (.Integer i) = .ok (.Float (i : Rat)))
  ∧ (i < 0 → assignCoerce ⟨old, .Typ "whole"⟩ (.Integer i) = .error .argError)
  ∧ (0 ≤ i →
      assignCoerce ⟨old, .Typ "whole"⟩ (.Integer i) = .ok (.Whole (intToU64 i)))
  ∧ (q < 0 → assignCoerce ⟨old, .Typ "whole"⟩ (.Float q) = .error .argError)
  ∧ (0 ≤ q →
      assignCoerce ⟨old, .Typ "whole"⟩ (.Float q) = .ok (.Whole (ratToU64 q)))
  ∧ (assignCoerce ⟨old, .Typ "integer"⟩ (.Float q) = .ok (.Integer (ratToI64 q)))
  ∧ (w < 2 ^ 63 →
      assignCoerce ⟨old, .Typ "whole"⟩ (.Integer (w : Int)) = .ok (.Whole w))
  ∧ (w < 2 ^ 64 →
      assignCoerce ⟨old, .Typ "whole"⟩ (.Float (w : Rat)) = .ok (.Whole w))
  ∧ (∀ v : Data, ∀ tn : String, stringify_enum v ≠ tn → matrixCase v tn = false →
      assignCoerce ⟨old, .Typ tn⟩ v = .error .typeError) := by
  refine ⟨rfl, ?_, rfl, rfl, ?_, ?_, ?_, ?_, rfl, ?_, ?_, ?_⟩
  · intro hw
    have : natToI64 w = (w : Int) := by
      unfold natToI64
      rw [Nat.mod_eq_of_lt (lt_trans hw (by norm_num))]
      rw [if_pos hw]
    simp only [assignCoerce, stringify_enum]
    rw [if_pos (by decide)]
    simp [this]
  · intro hi
    simp only [assignCoerce, stringify_enum]
    rw [if_pos (by decide)]
    simp [hi, not_le.mpr hi]
  · intro hi
    simp only [assignCoerce, stringify_enum]
    rw [if_pos (by decide)]
    simp [not_lt.mpr hi]
  · intro hq
    simp only [assignCoerce, stringify_enum]
    rw [if_pos (by decide)]
    simp [hq, not_le.mpr hq]
  · intro hq
    simp only [assignCoerce, stringify_enum]
    rw [if_pos (by decide)]
    simp [not_lt.mpr hq]
  · intro hw
    have h0 : (0 : Int) ≤ (w : Int) := Int.ofNat_nonneg w
    have : intToU64 (w : Int) = w := by
      unfold intToU64
      rw [Int.emod_eq_of_lt h0 (by exact_mod_cast lt_trans hw (by norm_num))]
      exact Int.toNat_natCast w
    simp only [assignCoerce, stringify_enum]
    rw [if_pos (by decide)]
    simp [not_lt.mpr h0, this]
  · intro hw
    have h0 : ¬ ((w : Rat) < 0) := not_lt.mpr (by positivity)
    have htr : ratTrunc ((w : Rat) : Rat) = (w : Int) := by
      unfold ratTrunc
      rw [Rat.num_natCast, Rat.den_natCast]
      simp [Int.tdiv]
    have : ratToU64 ((w : Rat)) = w := by
      unfold ratToU64
      rw [htr, Int.toNat_natCast]
      exact min_eq_left (by omega)
    simp only [assignCoerce, stringify_enum]
    rw [if_pos (by decide)]
    simp [h0, this]
  · intro v tn htag hmat
    cases v <;>
      simp only [matrixCase, stringify_enum] at htag hmat ⊢ <;>
      simp only [assignCoerce, stringify_enum] <;>
      rw [if_pos (Ne.symm htag)] <;>
      first
        | rfl
        | (simp only [Bool.or_eq_false_iff, decide_eq_false_iff_not] at hmat
           split <;> simp_all)

/-- Witness for C1 at concrete inputs covering each matrix row. -/
theorem assign_coercion_matrix_witness :
    (assignCoerce ⟨.Null, .Typ "integer"⟩ (.Whole 5) = .ok (.Integer 5))
  ∧ (assignCoerce ⟨.Null, .Typ "float"⟩ (.Whole 5) = .ok (.Float ((5 : Nat) : Rat)))
  ∧ (assignCoerce ⟨.Null, .Typ "whole"⟩ (.Integer (-3)) = .error .argError)
  ∧ (assignCoerce ⟨.Null, .Typ "whole"⟩ (.Integer 3) = .ok (.Whole 3))
  ∧ (assignCoerce ⟨.Null, .Typ "whole"⟩ (.Float (-(1 : Rat))) = .error .argError)
  ∧ (assignCoerce ⟨.Null, .Typ "integer"⟩ (.Float ((3 : Nat) : Rat)) =
      .ok (.Integer (ratToI64 ((3 : Nat) : Rat))))
  ∧ (assignCoerce ⟨.Null, .Typ "boolean"⟩ (.Whole 5) = .error .typeError) := by
  refine ⟨?_, ?_, ?_, ?_, ?_, ?_, ?_⟩
  · exact ((assign_coercion_matrix .Null 5 0 0).2.1 (by norm_num)).trans (by rfl)
  · exact (assign_coercion_matrix .Null 5 0 0).2.2.1
  · exact (assign_coercion_matrix .Null 0 (-3) 0).2.2.2.2.1 (by decide)
  · exact ((assign_coercion_matrix .Null 3 3 0).2.2.2.2.2.2.2.2.2.1
      (by norm_num)).trans (by rfl)
  · exact (assign_coercion_matrix .Null 0 0 (-(1 : Rat))).2.2.2.2.2.2.1 (by decide)
  · exact (assign_coercion_matrix .Null 0 0 ((3 : Nat) : Rat)).2.2.2.2.2.2.2.2.1
  · exact (assign_coercion_matrix .Null 5 0 0).2.2.2.2.2.2.2.2.2.2.2
      (.Whole 5) "boolean" (by decide) (by decide)

/-! ### C6 -/

/-- C6: executing a `Declare` statement whose children are an `Identifier` and
a `Type` inserts a variable under the identifier's name with `data_type`
copied from the `Type` child, appends the name to the frame's locals, and
continues with the remaining statements; the initial value is `Null` for every
type name other than `"list"`, and for `"list"` it is an empty `List` carrying
the `Type` node's child types. -/
theorem declare_inserts_typed_initial (fuel : Nat) (st : InterpState)
    (nid cid tid : Nat) (name tyname : String) (c0nodes tns rest : List Node) :
    interpretNodes (fuel + 1) st
      (Node.mk nid .Declare
        [Node.mk cid (.Identifier name) c0nodes, Node.mk tid (.Typ tyname) tns]
        :: rest) =
      interpretNodes fuel
        ⟨minsert st.memory name ⟨declareInit tyname tns, .Typ tyname⟩,
          st.locals ++ [name]⟩ rest
  ∧ mlookup (minsert st.memory name ⟨declareInit tyname tns, .Typ tyname⟩) name =
      some ⟨declareInit tyname tns, .Typ tyname⟩
  ∧ (tyname ≠ "list" → declareInit tyname tns = .Null)
  ∧ declareInit "list" tns = .List (tns.map Node.data) [] := by
  refine ⟨rfl, by simp, ?_, by simp [declareInit]⟩
  intro h
  simp [declareInit, h]

/-- Witness for C6: a scalar declaration and a list declaration, evaluated. -/
theorem declare_inserts_typed_initial_witness :
    interpretNodes 2 ⟨[], []⟩
      [Node.mk 0 .Declare
        [Node.mk 0 (.Identifier "x") [], Node.mk 1 (.Typ "integer") []]] =
      .ok ⟨[("x", ⟨.Null, .Typ "integer"⟩)], ["x"]⟩
  ∧ interpretNodes 2 ⟨[], []⟩
      [Node.mk 0 .Declare
        [Node.mk 0 (.Identifier "l") [],
          Node.mk 1 (.Typ "list") [Node.mk 0 (.Typ "whole") []]]] =
      .ok ⟨[("l", ⟨.List [.Typ "whole"] [], .Typ "list"⟩)], ["l"]⟩ := by
  constructor
  · have h := (declare_inserts_typed_initial 1 ⟨[], []⟩ 0 0 1 "x" "integer"
      [] [] []).1
    have h2 := (declare_inserts_typed_initial 1 ⟨[], []⟩ 0 0 1 "x" "integer"
      [] [] []).2.2.1 (by decide)
    rw [h2] at h
    exact h.trans (by rfl)
  · have h := (declare_inserts_typed_initial 1 ⟨[], []⟩ 0 0 1 "l" "list"
      [] [Node.mk 0 (.Typ "whole") []] []).1
    exact h.trans (by rfl)

/-! ### C10 -/

/-- C10 counterexample: `return f()` executed in a frame whose memory has no
`"return"` entry does not abort: evaluating the call installs a `"return"`
slot (the callee frame's leftover) into the caller's memory before the
`Return` statement looks the slot up, so the lookup succeeds. -/
theorem return_without_slot_can_succeed :
    interpretNodes 5
      ⟨[("f", ⟨.Function [] [] [.Typ "whole"] [], .Typ "function"⟩)], []⟩
      [Node.mk 0 .Return [Node.mk 0 (.Identifier "f") []]] =
      .ok ⟨[("f", ⟨.Function [] [] [.Typ "whole"] [], .Typ "function"⟩),
            ("return", ⟨.Null, .Typ "whole"⟩)], []⟩
  ∧ mlookup [("f", (⟨.Function [] [] [.Typ "whole"] [], .Typ "function"⟩ : Variable))]
      "return" = none := by
  exact ⟨rfl, rfl⟩

/-- C10 (amended): a `Return` statement first evaluates the returned
expression, then looks `"return"` up in the (possibly updated) memory: when the
slot is present the statement overwrites its value, preserves that entry's
`data_type`, and stops the frame's statement dispatch; when it is absent the
interpreter aborts (the slot is never created). -/
theorem return_overwrites_slot_after_eval (fuel : Nat) (st st' : InterpState)
    (value : Data) (nid : Nat) (children rest : List Node) :
    (evalExpression fuel st (Node.mk 0 .Expression children) = .ok (st', value) →
      (∀ slot, mlookup st'.memory "return" = some slot →
        interpretNodes (fuel + 1) st (Node.mk nid .Return children :: rest) =
          .ok ⟨minsert st'.memory "return" ⟨value, slot.data_type⟩, st'.locals⟩)
      ∧ (mlookup st'.memory "return" = none →
        interpretNodes (fuel + 1) st (Node.mk nid .Return children :: rest) =
          .error .nameError)) := by
  intro heval
  constructor
  · intro slot hslot
    simp only [interpretNodes, Node.data, Node.nodes, heval, hslot]
  · intro hnone
    simp only [interpretNodes, Node.data, Node.nodes, heval, hnone]

/-- Witness for C10: overwriting an existing slot, and aborting when the slot
is absent after evaluation. -/
theorem return_overwrites_slot_after_eval_witness :
    interpretNodes 2 ⟨[("return", ⟨.Null, .Typ "whole"⟩)], []⟩
      [Node.mk 0 .Return [Node.mk 0 (.Whole 7) []]] =
      .ok ⟨[("return", ⟨.Whole 7, .Typ "whole"⟩)], []⟩
  ∧ interpretNodes 2 ⟨[], []⟩
      [Node.mk 0 .Return [Node.mk 0 (.Whole 7) []]] = .error .nameError := by
  constructor
  · have h := ((return_overwrites_slot_after_eval 1
      ⟨[("return", ⟨.Null, .Typ "whole"⟩)], []⟩
      ⟨[("return", ⟨.Null, .Typ "whole"⟩)], []⟩ (.Whole 7) 0
      [Node.mk 0 (.Whole 7) []] []) rfl).1 ⟨.Null, .Typ "whole"⟩ rfl
    exact h.trans (by rfl)
  · exact ((return_overwrites_slot_after_eval 1 ⟨[], []⟩ ⟨[], []⟩ (.Whole 7) 0
      [Node.mk 0 (.Whole 7) []] []) rfl).2 rfl

/-! ### C2 -/

/-- C2 counterexample: the claim says the callee frame leaves behind no keys
other than mutations of variables visible in the outer memory, but the call
machinery's `"return"` slot survives `filter_memory` (it is never a local):
calling `f()` with a caller memory that has no `"return"` key yields a caller
memory that does. -/
theorem call_leaves_return_slot_behind :
    evalExpression 5
      ⟨[("f", ⟨.Function [] [] [.Typ "whole"] [], .Typ "function"⟩)], []⟩
      (Node.mk 0 .Expression [Node.mk 0 (.Identifier "f") []]) =
      .ok (⟨[("f", ⟨.Function [] [] [.Typ "whole"] [], .Typ "function"⟩),
             ("return", ⟨.Null, .Typ "whole"⟩)], []⟩, .Null)
  ∧ mlookup [("f", (⟨.Function [] [] [.Typ "whole"] [], .Typ "function"⟩ : Variable))]
      "return" = none
  ∧ mlookup [("f", (⟨.Function [] [] [.Typ "whole"] [], .Typ "function"⟩ : Variable)),
             ("return", (⟨.Null, .Typ "whole"⟩ : Variable))] "return" =
      some ⟨.Null, .Typ "whole"⟩ := by
  exact ⟨rfl, rfl, rfl⟩

/-- C2 (amended): for every user-defined function call that returns normally,
the caller's memory after the call is exactly the callee sub-interpreter's
final memory with the callee frame's locals (its parameters plus the names
declared directly in its frame) removed: every callee local is absent
afterwards, and every other key — including the `"return"` slot the call
machinery created — holds exactly the value the callee's final memory holds
for it. -/
theorem call_replaces_memory_minus_callee_locals (fuel : Nat)
    (st st1 : InterpState) (fname : String) (dt rt : Data)
    (params : List String) (ptypes rtypes : List Data)
    (body argNodes extra : List Node) (args : List Data) (mem : Memory)
    (plocals : List String) (subSt : InterpState) (rv : Variable)
    (eid cid : Nat) :
    mlookup st.memory fname = some ⟨.Function params ptypes rtypes body, dt⟩ →
    evalArgs fuel st argNodes = .ok (st1, args) →
    bindParams params ptypes args st1.memory = some (mem, plocals) →
    rtypes.get? 0 = some rt →
    interpretNodes fuel ⟨minsert mem "return" ⟨.Null, rt⟩, plocals⟩ body =
      .ok subSt →
    mlookup (filterMemory subSt.memory subSt.locals) "return" = some rv →
    evalExpression (fuel + 1) st
        (Node.mk eid .Expression (Node.mk cid (.Identifier fname) argNodes :: extra)) =
      .ok (⟨filterMemory subSt.memory subSt.locals, st1.locals⟩, rv.value)
    ∧ (∀ k ∈ subSt.locals,
        mlookup (filterMemory subSt.memory subSt.locals) k = none)
    ∧ (∀ k, k ∉ subSt.locals →
        mlookup (filterMemory subSt.memory subSt.locals) k =
          mlookup subSt.memory k) := by
  intro hf hargs hbind hrt hrun hret
  refine ⟨?_, ?_, ?_⟩
  · simp only [evalExpression, Node.data, Node.nodes, List.get?, hf, hargs, hbind,
      hrt, hrun, hret]
  · intro k hk
    rw [mlookup_filterMemory]
    simp [hk]
  · intro k hk
    rw [mlookup_filterMemory]
    simp [hk]

/-- Witness for C2: a call to `fun(n as whole) as whole { declare y as text
return n }` removes the callee locals `n` and `y` from the resulting memory but
keeps the mutated `"return"` slot. -/
theorem call_replaces_memory_minus_callee_locals_witness :
    evalExpression 5
      ⟨[("f", ⟨.Function ["n"] [.Typ "whole"] [.Typ "whole"]
          [Node.mk 0 .Declare
            [Node.mk 0 (.Identifier "y") [], Node.mk 1 (.Typ "text") []],
           Node.mk 1 .Return [Node.mk 0 (.Identifier "n") []]],
          .Typ "function"⟩)], []⟩
      (Node.mk 0 .Expression
        [Node.mk 0 (.Identifier "f") [Node.mk 0 (.Whole 4) []]]) =
      .ok (⟨[("f", ⟨.Function ["n"] [.Typ "whole"] [.Typ "whole"]
          [Node.mk 0 .Declare
            [Node.mk 0 (.Identifier "y") [], Node.mk 1 (.Typ "text") []],
           Node.mk 1 .Return [Node.mk 0 (.Identifier "n") []]],
          .Typ "function"⟩),
            ("return", ⟨.Whole 4, .Typ "whole"⟩)], []⟩, .Whole 4) := by
  have h := (call_replaces_memory_minus_callee_locals 4
    ⟨[("f", ⟨.Function ["n"] [.Typ "whole"] [.Typ "whole"]
        [Node.mk 0 .Declare
          [Node.mk 0 (.Identifier "y") [], Node.mk 1 (.Typ "text") []],
         Node.mk 1 .Return [Node.mk 0 (.Identifier "n") []]],
        .Typ "function"⟩)], []⟩
    ⟨[("f", ⟨.Function ["n"] [.Typ "whole"] [.Typ "whole"]
        [Node.mk 0 .Declare
          [Node.mk 0 (.Identifier "y") [], Node.mk 1 (.Typ "text") []],
         Node.mk 1 .Return [Node.mk 0 (.Identifier "n") []]],
        .Typ "function"⟩)], []⟩
    "f" (.Typ "function") (.Typ "whole") ["n"] [.Typ "whole"] [.Typ "whole"]
    [Node.mk 0 .Declare
      [Node.mk 0 (.Identifier "y") [], Node.mk 1 (.Typ "text") []],
     Node.mk 1 .Return [Node.mk 0 (.Identifier "n") []]]
    [Node.mk 0 (.Whole 4) []] [] [.Whole 4]
    [("f", ⟨.Function ["n"] [.Typ "whole"] [.Typ "whole"]
        [Node.mk 0 .Declare
          [Node.mk 0 (.Identifier "y") [], Node.mk 1 (.Typ "text") []],
         Node.mk 1 .Return [Node.mk 0 (.Identifier "n") []]],
        .Typ "function"⟩),
     ("n", ⟨.Whole 4, .Typ "whole"⟩)] ["n"]
    ⟨[("f", ⟨.Function ["n"] [.Typ "whole"] [.Typ "whole"]
        [Node.mk 0 .Declare
          [Node.mk 0 (.Identifier "y") [], Node.mk 1 (.Typ "text") []],
         Node.mk 1 .Return [Node.mk 0 (.Identifier "n") []]],
        .Typ "function"⟩),
      ("n", ⟨.Whole 4, .Typ "whole"⟩),
      ("return", ⟨.Whole 4, .Typ "whole"⟩),
      ("y", ⟨.Null, .Typ "text"⟩)], ["n", "y"]⟩
    ⟨.Whole 4, .Typ "whole"⟩ 0 0 rfl rfl rfl rfl rfl rfl).1
  exact h.trans (by rfl)

/-! ### C3 -/

/-- C3: in `loop_while` the guard is evaluated once, before the first
iteration, on the caller interpreter (whose pre-guard memory seeds the
sub-interpreter): a non-Boolean result is a TypeError, a `false` result runs no
iteration, and a `true` result enters the iteration loop; after each completed
iteration the guard is re-evaluated on the sub-interpreter, and a non-Boolean
result there is a TypeError. -/
theorem while_guard_eval_caller_then_sub (guard : Node) (body : List Node) :
    (∀ fuel st st' v, evalExpression fuel st guard = .ok (st', v) →
      (∀ b, v ≠ .Boolean b) →
      loopWhile (fuel + 1) st guard body = .error .typeError)
  ∧ (∀ fuel st st', evalExpression (fuel + 1) st guard = .ok (st', .Boolean false) →
      loopWhile (fuel + 2) st guard body = .ok (⟨st.memory, st'.locals⟩, false))
  ∧ (∀ fuel st st', evalExpression fuel st guard = .ok (st', .Boolean true) →
      loopWhile (fuel + 1) st guard body =
        whileIter fuel st' ⟨st.memory, []⟩ guard body true)
  ∧ (∀ fuel st sub sub' sub'' v, interpretNodes fuel sub body = .ok sub' →
      evalExpression fuel sub' guard = .ok (sub'', v) →
      (∀ b, v ≠ .Boolean b) →
      whileIter (fuel + 1) st sub guard body true = .error .typeError) := by
  refine ⟨?_, ?_, ?_, ?_⟩
  · intro fuel st st' v heval hnb
    cases v
    case Boolean b => exact absurd rfl (hnb b)
    all_goals simp only [loopWhile, heval]
  · intro fuel st st' heval
    simp [loopWhile, heval, whileIter]
  · intro fuel st st' heval
    simp only [loopWhile, heval]
  · intro fuel st sub sub' sub'' v hrun heval hnb
    cases v
    case Boolean b => exact absurd rfl (hnb b)
    all_goals simp [whileIter, hrun, heval]

/-- Witness for C3: a non-Boolean guard fails before any iteration; a `false`
guard runs no iteration; a non-Boolean re-evaluation after an iteration fails. -/
theorem while_guard_eval_caller_then_sub_witness :
    loopWhile 2 ⟨[], []⟩ (Node.mk 0 .Expression [Node.mk 0 (.Whole 1) []]) [] =
      .error .typeError
  ∧ loopWhile 2 ⟨[], []⟩ (Node.mk 0 .Expression [Node.mk 0 (.Boolean false) []]) [] =
      .ok (⟨[], []⟩, false)
  ∧ whileIter 2 ⟨[], []⟩ ⟨[], []⟩
      (Node.mk 0 .Expression [Node.mk 0 (.Whole 1) []]) [] true =
      .error .typeError := by
  refine ⟨?_, ?_, ?_⟩
  · exact (while_guard_eval_caller_then_sub
      (Node.mk 0 .Expression [Node.mk 0 (.Whole 1) []]) []).1 1 ⟨[], []⟩ ⟨[], []⟩
      (.Whole 1) rfl (fun b h => Data.noConfusion h)
  · exact ((while_guard_eval_caller_then_sub
      (Node.mk 0 .Expression [Node.mk 0 (.Boolean false) []]) []).2.1 0 ⟨[], []⟩
      ⟨[], []⟩ rfl).trans (by rfl)
  · exact (while_guard_eval_caller_then_sub
      (Node.mk 0 .Expression [Node.mk 0 (.Whole 1) []]) []).2.2.2 1 ⟨[], []⟩
      ⟨[], []⟩ ⟨[], []⟩ ⟨[], []⟩ (.Whole 1) rfl rfl (fun b h => Data.noConfusion h)

/-! ### C4 -/

/-- C4: when, after an iteration of a `while` loop (the body run followed by
the guard re-evaluation, both on the sub-interpreter), the sub-interpreter's
memory holds a `"return"` variable whose value is not `Null`, the loop iterates
no further — whatever the re-evaluated guard said — and returns `true` with the
caller's memory replaced by the sub-interpreter's (unfiltered) memory; and a
`While` statement whose `loop_while` returns `true` makes the enclosing frame
stop dispatching the remaining statements. -/
theorem while_return_propagates (guard : Node) (body : List Node) :
    (∀ fuel st sub sub' sub'' b slot, interpretNodes fuel sub body = .ok sub' →
      evalExpression fuel sub' guard = .ok (sub'', .Boolean b) →
      mlookup sub''.memory "return" = some slot →
      slot.value.isNull = false →
      whileIter (fuel + 1) st sub guard body true =
        .ok (⟨sub''.memory, st.locals⟩, true))
  ∧ (∀ fuel st st'' nid rest, loopWhile fuel st guard body = .ok (st'', true) →
      interpretNodes (fuel + 1) st (Node.mk nid .While (guard :: body) :: rest) =
        .ok st'') := by
  constructor
  · intro fuel st sub sub' sub'' b slot hrun heval hslot hnn
    simp only [whileIter, if_pos rfl, hrun, heval, hslot, hnn]
    simp
  · intro fuel st st'' nid rest hloop
    simp [interpretNodes, Node.data, Node.nodes, hloop]

/-- Witness for C4: `while true { return 1 }` in a frame with a `"return"`
slot stops after one iteration, propagates the sub-memory, and makes the frame
return without dispatching the following statement. -/
theorem while_return_propagates_witness :
    whileIter 3 ⟨[("return", ⟨.Null, .Typ "whole"⟩)], []⟩
      ⟨[("return", ⟨.Null, .Typ "whole"⟩)], []⟩
      (Node.mk 0 .Expression [Node.mk 0 (.Boolean true) []])
      [Node.mk 1 .Return [Node.mk 0 (.Whole 1) []]] true =
      .ok (⟨[("return", ⟨.Whole 1, .Typ "whole"⟩)], []⟩, true)
  ∧ interpretNodes 5 ⟨[("return", ⟨.Null, .Typ "whole"⟩)], []⟩
      [Node.mk 0 .While
        [Node.mk 0 .Expression [Node.mk 0 (.Boolean true) []],
         Node.mk 1 .Return [Node.mk 0 (.Whole 1) []]],
       Node.mk 1 (.Text "unreachable") []] =
      .ok ⟨[("return", ⟨.Whole 1, .Typ "whole"⟩)], []⟩ := by
  constructor
  · exact ((while_return_propagates
      (Node.mk 0 .Expression [Node.mk 0 (.Boolean true) []])
      [Node.mk 1 .Return [Node.mk 0 (.Whole 1) []]]).1 2
      ⟨[("return", ⟨.Null, .Typ "whole"⟩)], []⟩
      ⟨[("return", ⟨.Null, .Typ "whole"⟩)], []⟩
      ⟨[("return", ⟨.Whole 1, .Typ "whole"⟩)], []⟩
      ⟨[("return", ⟨.Whole 1, .Typ "whole"⟩)], []⟩ true
      ⟨.Whole 1, .Typ "whole"⟩ rfl rfl rfl rfl).trans (by rfl)
  · exact ((while_return_propagates
      (Node.mk 0 .Expression [Node.mk 0 (.Boolean true) []])
      [Node.mk 1 .Return [Node.mk 0 (.Whole 1) []]]).2 4
      ⟨[("return", ⟨.Null, .Typ "whole"⟩)], []⟩
      ⟨[("return", ⟨.Whole 1, .Typ "whole"⟩)], []⟩ 0
      [Node.mk 1 (.Text "unreachable") []] rfl).trans (by rfl)

/-! ### The lexer (for C9) -/

/-- `enum Meta` from main.rs (token categories). -/
inductive Meta where
  | REF | TYP | WHL | INT | FLT | KEY | BLN | TXT | FUN | PAR | BRK | BRC
deriving DecidableEq, Repr

/-- `struct Token { value, category }`. -/
structure Token where
  value : String
  category : Meta
deriving DecidableEq, Repr

/-- The `letters` character class of `create_lexer` (`String::contains(char)`
is character membership, so the classes are embedded as character lists). -/
def lexLetters : List Char := "abcdefghijklmnopqrstuvwxyz_".toList

/-- The `digits` character class of `create_lexer`. -/
def lexDigits : List Char := "0123456789".toList

/-- The `keywords` list of `create_lexer`. -/
def lexKeywords : List String :=
  ["declare", "as", "set", "to", "while", "return"]

/-- The `types` array of `get_tokens`. -/
def lexTypes : List String :=
  ["whole", "integer", "float", "boolean", "text", "function", "list"]

/-- Lexer state: `struct Lexer` minus the constant character classes (the Rust
field `end` is spelled `endF`; `end` is a Lean keyword). -/
structure LexState where
  code : List Char
  index : Nat
  character : Char
  endF : Bool
deriving DecidableEq

/-- `Lexer::step`. -/
def LexState.step (s : LexState) : LexState :=
  let i := s.index + 1
  if h : i < s.code.length then
    { s with index := i, character := s.code.get ⟨i, h⟩ }
  else
    { s with index := i, endF := true }

/-- The loop condition of `get_number`: a digit or a `.`. -/
def isNumCh (ch : Char) : Bool :=
  decide (ch ∈ lexDigits) || decide (ch = '.')

/-- `Lexer::get_number`, collecting the consumed characters (fuel makes the
loop total; `none` only on fuel exhaustion). -/
def getNumber (fuel : Nat) (s : LexState) : Option (List Char × LexState) :=
  if s.endF = false ∧ isNumCh s.character = true then
    match fuel with
    | 0 => none
    | fuel' + 1 =>
      match getNumber fuel' s.step with
      | some (rest, s') => some (s.character :: rest, s')
      | none => none
  else some ([], s)

/-- `Lexer::get_word`. -/
def getWord (fuel : Nat) (s : LexState) : Option (List Char × LexState) :=
  if s.endF = false ∧ s.character ∈ lexLetters then
    match fuel with
    | 0 => none
    | fuel' + 1 =>
      match getWord fuel' s.step with
      | some (rest, s') => some (s.character :: rest, s')
      | none => none
  else some ([], s)

/-- `Lexer::get_string`. -/
def getString (fuel : Nat) (s : LexState) : Option (List Char × LexState) :=
  if s.endF = false ∧ s.character ≠ '"' then
    match fuel with
    | 0 => none
    | fuel' + 1 =>
      match getString fuel' s.step with
      | some (rest, s') => some (s.character :: rest, s')
      | none => none
  else some ([], s)

/-- Classification of a completed word token in `get_tokens`. -/
def classifyWord (word : String) : Token :=
  if word ∈ lexKeywords then ⟨word, .KEY⟩
  else if word = "false" ∨ word = "true" then ⟨word, .BLN⟩
  else if word ∈ lexTypes then ⟨word, .TYP⟩
  else if word = "fun" then ⟨word, .FUN⟩
  else ⟨word, .REF⟩

/-- Classification of a completed numeric token in `get_tokens`
(`String::contains` is membership in the character sequence). -/
def classifyNumber (chars : List Char) : Token :=
  if '.' ∈ chars then ⟨String.mk chars, .FLT⟩
  else if '+' ∈ chars ∨ '-' ∈ chars then ⟨String.mk chars, .INT⟩
  else ⟨String.mk chars, .WHL⟩

/-- The token loop of `Lexer::get_tokens`.  The `continue` of the word and
number branches skips the trailing `step`; the other branches step once at the
bottom of the loop. -/
def gtLoop : Nat → LexState → Option (List Token)
  | 0, _ => none
  | fuel + 1, s =>
    if s.endF = true then some []
    else if s.character ∈ lexLetters then
      match getWord fuel s with
      | none => none
      | some (chars, s') =>
        (gtLoop fuel s').map (classifyWord (String.mk chars) :: ·)
    else if s.character ∈ lexDigits ∨ s.character = '+' ∨ s.character = '-' then
      match getNumber fuel s.step with
      | none => none
      | some (rest, s') =>
        (gtLoop fuel s').map (classifyNumber (s.character :: rest) :: ·)
    else if s.character ∈ ("()".toList) then
      (gtLoop fuel s.step).map (Token.mk s.character.toString .PAR :: ·)
    else if s.character ∈ ("{}".toList) then
      (gtLoop fuel s.step).map (Token.mk s.character.toString .BRC :: ·)
    else if s.character ∈ ("[]".toList) then
      (gtLoop fuel s.step).map (Token.mk s.character.toString .BRK :: ·)
    else if s.character = '"' then
      match getString fuel s.step with
      | none => none
      | some (text, s') =>
        (gtLoop fuel s'.step).map (Token.mk (String.mk text) .TXT :: ·)
    else gtLoop fuel s.step

/-- `create_lexer` + `get_tokens`: the initial character is `code[0]` (empty
input panics). -/
def getTokens (fuel : Nat) (code : String) : Option (List Token) :=
  match code.toList with
  | [] => none
  | c :: _ => gtLoop fuel ⟨code.toList, 0, c, false⟩

/-- Consistency of a lexer state: the cached `character` mirrors
`code[index]` while `end` is false, and `end` set means the index ran off the
end.  `create_lexer` establishes it and `step` preserves it. -/
def lexValid (s : LexState) : Prop :=
  (s.endF = false → s.index < s.code.length ∧ s.character = s.code.getD s.index ' ')
  ∧ (s.endF = true → s.code.length ≤ s.index)

theorem LexState.step_code (s : LexState) : s.step.code = s.code := by
  by_cases h : s.index + 1 < s.code.length <;> simp [LexState.step, h]

theorem LexState.step_index (s : LexState) : s.step.index = s.index + 1 := by
  by_cases h : s.index + 1 < s.code.length <;> simp [LexState.step, h]

theorem lexValid_step {s : LexState} (h : lexValid s) : lexValid s.step := by
  obtain ⟨h1, h2⟩ := h
  unfold LexState.step
  by_cases hlt : s.index + 1 < s.code.length
  · rw [dif_pos hlt]
    refine ⟨fun he => ⟨hlt, ?_⟩, fun he => ?_⟩
    · simp [List.getD_eq_getElem?_getD, List.getElem?_eq_getElem hlt]
    · exfalso
      have := h2 he
      omega
  · rw [dif_neg hlt]
    constructor
    · intro he
      exact absurd he (by simp)
    · intro _
      show s.code.length ≤ s.index + 1
      omega

theorem drop_cons_getD {l : List Char} {n : Nat} (h : n < l.length) :
    l.drop n = l.getD n ' ' :: l.drop (n + 1) := by
  rw [List.getD_eq_getElem?_getD, List.getElem?_eq_getElem h]
  exact List.drop_eq_getElem_cons h

/-- When the `get_number` loop condition fails the loop consumes nothing, and
the maximal numeric run at the cursor is empty. -/
theorem getNumber_stop {s : LexState} (hv : lexValid s)
    (hcond : ¬ (s.endF = false ∧ isNumCh s.character = true)) (fuel : Nat) :
    getNumber fuel s = some ([], s)
  ∧ (s.code.drop s.index).takeWhile isNumCh = [] := by
  constructor
  · unfold getNumber
    rw [if_neg hcond]
  · by_cases hend : s.endF = true
    · have := hv.2 hend
      rw [List.drop_eq_nil_of_le this]
      rfl
    · have hend' : s.endF = false := by
        cases h : s.endF
        · rfl
        · exact absurd h hend
      have hch : ¬ isNumCh s.character = true := fun hch => hcond ⟨hend', hch⟩
      obtain ⟨hidx, hchar⟩ := hv.1 hend'
      rw [drop_cons_getD hidx, List.takeWhile_cons, ← hchar]
      simp [hch]

/-- `get_number` consumes exactly the maximal run of digits and dots at the
cursor, leaving a consistent state just past the run. -/
theorem getNumber_spec : ∀ (fuel : Nat) (s : LexState), lexValid s →
    s.code.length - s.index ≤ fuel →
    ∃ s', getNumber fuel s =
        some ((s.code.drop s.index).takeWhile isNumCh, s')
      ∧ s'.code = s.code
      ∧ s'.index = s.index + ((s.code.drop s.index).takeWhile isNumCh).length
      ∧ lexValid s' := by
  intro fuel
  induction fuel with
  | zero =>
    intro s hv hf
    by_cases hcond : s.endF = false ∧ isNumCh s.character = true
    · obtain ⟨hidx, _⟩ := hv.1 hcond.1
      omega
    · obtain ⟨h1, h2⟩ := getNumber_stop hv hcond 0
      exact ⟨s, by rw [h1, h2], rfl, by rw [h2]; rfl, hv⟩
  | succ fuel ih =>
    intro s hv hf
    by_cases hcond : s.endF = false ∧ isNumCh s.character = true
    · obtain ⟨hend, hch⟩ := hcond
      obtain ⟨hidx, hchar⟩ := hv.1 hend
      have hf' : s.step.code.length - s.step.index ≤ fuel := by
        rw [LexState.step_code, LexState.step_index]
        omega
      obtain ⟨s', heq, hc, hi, hv'⟩ := ih s.step (lexValid_step hv) hf'
      rw [LexState.step_code, LexState.step_index] at heq
      rw [LexState.step_code, LexState.step_index] at hi
      rw [LexState.step_code] at hc
      have hdrop : s.code.drop s.index = s.character :: s.code.drop (s.index + 1) := by
        rw [hchar]
        exact drop_cons_getD hidx
      have htake : (s.code.drop s.index).takeWhile isNumCh =
          s.character :: (s.code.drop (s.index + 1)).takeWhile isNumCh := by
        rw [hdrop, List.takeWhile_cons, hch]
        rfl
      refine ⟨s', ?_, hc, ?_, hv'⟩
      · unfold getNumber
        rw [if_pos ⟨hend, hch⟩]
        show (match getNumber fuel s.step with
          | some (rest, s') => some (s.character :: rest, s')
          | none => none) = _
        rw [heq, htake]
      · rw [htake, hi]
        simp
        omega
    · obtain ⟨h1, h2⟩ := getNumber_stop hv hcond (fuel + 1)
      exact ⟨s, by rw [h1, h2], rfl, by rw [h2]; rfl, hv⟩

theorem numStart_not_letter {c : Char}
    (hc : c ∈ lexDigits ∨ c = '+' ∨ c = '-') : c ∉ lexLetters := by
  rcases hc with h | h | h
  · fin_cases h <;> decide
  · subst h; decide
  · subst h; decide

/-- On a run whose tail holds only digits and dots, the `contains`-based sign
test of `get_tokens` agrees with "begins with a sign". -/
theorem classifyNumber_sign_is_head (c : Char) (run : List Char)
    (hrun : ∀ x ∈ run, isNumCh x = true) :
    classifyNumber (c :: run) =
      ⟨String.mk (c :: run),
        if '.' ∈ c :: run then Meta.FLT
        else if c = '+' ∨ c = '-' then Meta.INT
        else Meta.WHL⟩ := by
  unfold classifyNumber
  by_cases hdot : '.' ∈ c :: run
  · rw [if_pos hdot, if_pos hdot]
  · rw [if_neg hdot, if_neg hdot]
    have hiff : ('+' ∈ c :: run ∨ '-' ∈ c :: run) ↔ (c = '+' ∨ c = '-') := by
      constructor
      · rintro (h | h)
        · rcases List.mem_cons.mp h with h | h
          · exact Or.inl h.symm
          · exact absurd (hrun _ h) (by decide)
        · rcases List.mem_cons.mp h with h | h
          · exact Or.inr h.symm
          · exact absurd (hrun _ h) (by decide)
      · rintro (h | h)
        · exact Or.inl (h ▸ List.mem_cons_self c run)
        · exact Or.inr (h ▸ List.mem_cons_self c run)
    by_cases hsign : c = '+' ∨ c = '-'
    · rw [if_pos (hiff.mpr hsign), if_pos hsign]
    · rw [if_neg (fun hh => hsign (hiff.mp hh)), if_neg hsign]

/-! ### C9 -/

/-- C9 counterexample: the claim says a numeric token consumes at most one
`.`, but `get_number`'s loop accepts any number of dots: the input `1.2.3`
lexes as the single FLT token `"1.2.3"`, whose value holds two dots. -/
theorem lexer_consumes_multiple_dots :
    getTokens 20 "1.2.3" = some [⟨"1.2.3", .FLT⟩]
  ∧ "1.2.3".toList.count '.' = 2 := by
  exact ⟨by decide, by decide⟩

/-- C9 (amended): whenever the token loop meets a digit or a `+`/`-` (in a
consistent, non-ended state), it consumes that character followed by the
maximal run of digits and dots, emits one token whose value is that character
sequence — classified FLT if it contains `.`, else INT if it begins with `+`
or `-` (the code tests `contains`, which on such runs is equivalent), else
WHL — and continues lexing just past the run. -/
theorem lexer_number_maximal_run (gfuel : Nat) (s : LexState)
    (hv : lexValid s) (hend : s.endF = false)
    (hc : s.character ∈ lexDigits ∨ s.character = '+' ∨ s.character = '-')
    (hfuel : s.code.length - (s.index + 1) ≤ gfuel) :
    ∃ s', getNumber gfuel s.step =
        some ((s.code.drop (s.index + 1)).takeWhile isNumCh, s')
      ∧ s'.code = s.code
      ∧ s'.index = s.index + 1 +
          ((s.code.drop (s.index + 1)).takeWhile isNumCh).length
      ∧ lexValid s'
      ∧ gtLoop (gfuel + 1) s = (gtLoop gfuel s').map
          (classifyNumber
            (s.character :: (s.code.drop (s.index + 1)).takeWhile isNumCh) :: ·)
      ∧ classifyNumber
          (s.character :: (s.code.drop (s.index + 1)).takeWhile isNumCh) =
        ⟨String.mk
            (s.character :: (s.code.drop (s.index + 1)).takeWhile isNumCh),
          if '.' ∈ s.character :: (s.code.drop (s.index + 1)).takeWhile isNumCh
            then Meta.FLT
          else if s.character = '+' ∨ s.character = '-' then Meta.INT
          else Meta.WHL⟩ := by
  have hfuel' : s.step.code.length - s.step.index ≤ gfuel := by
    rw [LexState.step_code, LexState.step_index]
    exact hfuel
  obtain ⟨s', heq, hcode, hidx, hv'⟩ :=
    getNumber_spec gfuel s.step (lexValid_step hv) hfuel'
  rw [LexState.step_code, LexState.step_index] at heq
  rw [LexState.step_code, LexState.step_index] at hidx
  rw [LexState.step_code] at hcode
  refine ⟨s', heq, hcode, hidx, hv', ?_, ?_⟩
  · show gtLoop (gfuel + 1) s = _
    rw [show gtLoop (gfuel + 1) s =
        (if s.endF = true then some []
        else if s.character ∈ lexLetters then
          match getWord gfuel s with
          | none => none
          | some (chars, s') =>
            (gtLoop gfuel s').map (classifyWord (String.mk chars) :: ·)
        else if s.character ∈ lexDigits ∨ s.character = '+' ∨ s.character = '-' then
          match getNumber gfuel s.step with
          | none => none
          | some (rest, s') =>
            (gtLoop gfuel s').map (classifyNumber (s.character :: rest) :: ·)
        else if s.character ∈ ("()".toList) then
          (gtLoop gfuel s.step).map (Token.mk s.character.toString .PAR :: ·)
        else if s.character ∈ ("{}".toList) then
          (gtLoop gfuel s.step).map (Token.mk s.character.toString .BRC :: ·)
        else if s.character ∈ ("[]".toList) then
          (gtLoop gfuel s.step).map (Token.mk s.character.toString .BRK :: ·)
        else if s.character = '"' then
          match getString gfuel s.step with
          | none => none
          | some (text, s') =>
            (gtLoop gfuel s'.step).map (Token.mk (String.mk text) .TXT :: ·)
        else gtLoop gfuel s.step) from rfl]
    rw [if_neg (by rw [hend]; exact Bool.false_ne_true),
      if_neg (numStart_not_letter hc), if_pos hc, heq]
  · exact classifyNumber_sign_is_head _ _
      (fun x hx => List.mem_takeWhile_imp hx)

/-- Witness for C9: lexing from `12x` consumes `12` as a maximal run and
emits a WHL token before continuing at `x`. -/
theorem lexer_number_maximal_run_witness :
    gtLoop 6 ⟨"12x".toList, 0, '1', false⟩ =
      (gtLoop 5 ⟨"12x".toList, 2, 'x', false⟩).map (Token.mk "12" Meta.WHL :: ·) := by
  obtain ⟨s', h1, _, _, _, h5, _⟩ :=
    lexer_number_maximal_run 5 ⟨"12x".toList, 0, '1', false⟩
      (by constructor
          · intro _
            exact ⟨by decide, by decide⟩
          · intro h
            exact absurd h (by decide))
      rfl (by decide) (by decide)
  have hconc : getNumber 5 (LexState.mk "12x".toList 0 '1' false).step =
      some (['2'], ⟨"12x".toList, 2, 'x', false⟩) := by decide
  have h2 := Option.some.inj (h1.symm.trans hconc)
  have hs' : s' = ⟨"12x".toList, 2, 'x', false⟩ := congrArg Prod.snd h2
  have hrun : (("12x".toList.drop (0 + 1)).takeWhile isNumCh) = ['2'] :=
    congrArg Prod.fst h2
  rw [hs', hrun] at h5
  rw [h5]
  rw [show classifyNumber ('1' :: ['2']) = Token.mk "12" Meta.WHL from by decide]

/-! ### The parser (for C5) -/

/-- `Node::get_child_idx`: the index of the child whose `id` equals `id`. -/
def Node.getChildIdx (v : List Node) (id : Nat) : Option Nat :=
  v.findIdx? (fun n => n.id = id)

mutual
/-- `Node::insert`: look for a child whose `id` equals the child count and
recurse into it, otherwise append a fresh child carrying `item` (with
`id` = position).  Returns the updated node and the path of the inserted node
relative to `self` (the Rust function returns `&mut` to that node).  The
recursion into `nodes[x]` is expressed through `insertInList`, which rebuilds
the child list around the updated element (the `none` fallback mirrors the
unreachable out-of-range case: `get_child_idx` only returns valid indices). -/
def Node.insert : Node → Data → Node × List Nat
  | .mk i d ns, item =>
    match Node.getChildIdx ns ns.length with
    | some x =>
      match Node.insertInList ns x item with
      | some (ns', p) => (.mk i d ns', x :: p)
      | none => (.mk i d ns, [])
    | none =>
      (.mk i d (ns ++ [.mk ns.length item []]), [ns.length])

/-- Insert into the `x`-th element of a child list (`nodes[x].insert(item)`). -/
def Node.insertInList : List Node → Nat → Data → Option (List Node × List Nat)
  | [], _, _ => none
  | c :: rest, 0, item =>
    let r := Node.insert c item
    some (r.1 :: rest, r.2)
  | c :: rest, x + 1, item =>
    (Node.insertInList rest x item).map fun r => (c :: r.1, r.2)
end

/-- `Node::get_scope` (reading): descend a path of child indices. -/
def Node.getPath : Node → List Nat → Option Node
  | n, [] => some n
  | .mk _ _ ns, i :: p =>
    match ns.get? i with
    | some c => Node.getPath c p
    | none => none

/-- `get_scope` followed by `insert`: insert `item` at the node addressed by
`path`, returning the new tree and the absolute path of the inserted node
(`none` models the out-of-range indexing panic of `get_scope`). -/
def Node.insertAtPath : Node → List Nat → Data → Option (Node × List Nat)
  | n, [], item => some (n.insert item)
  | .mk i d ns, j :: p, item =>
    match ns.get? j with
    | some c =>
      match Node.insertAtPath c p item with
      | some (c', q) => some (.mk i d (ns.set j c'), j :: q)
      | none => none
    | none => none

/-- `struct Tree { root }`; `Tree::new` has a `Main` root. -/
structure Tree where
  root : Node

def Tree.new : Tree := ⟨.mk 0 .Main []⟩

def Tree.insertAt (t : Tree) (p : List Nat) (d : Data) : Option (Tree × List Nat) :=
  (Node.insertAtPath t.root p d).map fun r => (⟨r.1⟩, r.2)

/-- Parser state: `struct Parser` (`end` spelled `endF`). -/
structure PState where
  tokens : List Token
  index : Nat
  token : Token
  endF : Bool

/-- `Parser::step`. -/
def PState.step (p : PState) : PState :=
  let i := p.index + 1
  if h : i < p.tokens.length then
    { p with index := i, token := p.tokens.get ⟨i, h⟩ }
  else
    { p with index := i, endF := true }

/-- `Parser::back` (`none` models the usize underflow / index panic). -/
def PState.back (p : PState) : Option PState :=
  if p.index = 0 then none
  else
    match p.tokens.get? (p.index - 1) with
    | some t => some { p with index := p.index - 1, token := t }
    | none => none

/-- The one-token lookahead `self.index < self.tokens.len() - 1 &&
self.tokens[self.index + 1].value == v` used by the parser. -/
def PState.lookaheadIs (p : PState) (v : String) : Prop :=
  p.index < p.tokens.length - 1 ∧
    (p.tokens.get? (p.index + 1)).map Token.value = some v

instance (p : PState) (v : String) : Decidable (p.lookaheadIs v) := by
  unfold PState.lookaheadIs
  infer_instance

/-- Rust `usize::from_str` (optional `+`, digits, bounded). -/
def parseUsizeTok (s : String) : Option Nat :=
  let digits := match s.toList with
    | '+' :: rest => rest
    | chars => chars
  if digits ≠ [] ∧ digits.all (fun ch => decide (ch ∈ lexDigits)) = true then
    let v := digits.foldl (fun acc ch => acc * 10 + (ch.toNat - '0'.toNat)) 0
    if v < 2 ^ 64 then some v else none
  else none

/-- Rust `isize::from_str` (optional sign, digits, bounded). -/
def parseIsizeTok (s : String) : Option Int :=
  let signed : Bool × List Char := match s.toList with
    | '+' :: rest => (false, rest)
    | '-' :: rest => (true, rest)
    | chars => (false, chars)
  if signed.2 ≠ [] ∧ signed.2.all (fun ch => decide (ch ∈ lexDigits)) = true then
    let v : Int :=
      signed.2.foldl (fun acc ch => acc * 10 + ((ch.toNat : Int) - ('0'.toNat : Int))) 0
    let w := if signed.1 then -v else v
    if -(2 ^ 63) ≤ w ∧ w < 2 ^ 63 then some w else none
  else none

/-- Rust `f64::from_str` on the token grammar, idealised as an exact rational
(optional sign, digit run with at most one `.`, at least one digit). -/
def parseF64Tok (s : String) : Option Rat :=
  let signed : Bool × List Char := match s.toList with
    | '+' :: rest => (false, rest)
    | '-' :: rest => (true, rest)
    | chars => (false, chars)
  let ip := signed.2.takeWhile (fun c => decide (c ≠ '.'))
  let rest2 := signed.2.drop ip.length
  let digitsVal : List Char → Nat :=
    fun l => l.foldl (fun acc ch => acc * 10 + (ch.toNat - '0'.toNat)) 0
  let ok : List Char → Bool := fun l => l.all (fun ch => decide (ch ∈ lexDigits))
  match rest2 with
  | [] =>
    if ip ≠ [] ∧ ok ip = true then
      some (if signed.1 then -(digitsVal ip : Rat) else (digitsVal ip : Rat))
    else none
  | '.' :: fr =>
    if (ip ≠ [] ∨ fr ≠ []) ∧ ok ip = true ∧ ok fr = true then
      let v : Rat := (digitsVal ip : Rat) + (digitsVal fr : Rat) / ((10 : Rat) ^ fr.length)
      some (if signed.1 then -v else v)
    else none
  | _ => none

/-- Rust `bool::from_str`. -/
def parseBoolTok (s : String) : Option Bool :=
  if s = "true" then some true
  else if s = "false" then some false
  else none

mutual
/-- The `"declare"` branch of `Parser::build_tree`. -/
def declareBranch : Nat → PState → Tree → List Nat → Except Err (PState × Tree × List Nat)
  | 0, _, _, _ => .error .outOfFuel
  | fuel + 1, pst, tree, scope =>
    let pst1 := pst.step
    if pst1.token.category ≠ Meta.REF then .error .parseError
    else
      match tree.insertAt scope .Declare with
      | none => .error .parseError
      | some (tree1, declPath) =>
        match tree1.insertAt declPath (.Identifier pst1.token.value) with
        | none => .error .parseError
        | some (tree2, _) =>
          let pst2 := pst1.step
          if pst2.token.value = "as" then
            let pst3 := pst2.step
            if pst3.token.category ≠ Meta.TYP then .error .parseError
            else
              match tree2.insertAt declPath (.Typ pst3.token.value) with
              | none => .error .parseError
              | some (tree3, typePath) =>
                if pst3.lookaheadIs "[" then
                  match declTypeLoop fuel pst3.step.step tree3 typePath 1 with
                  | .error e => .error e
                  | .ok (pst6, tree4) =>
                    match pst6.back with
                    | none => .error .parseError
                    | some pst7 => .ok (pst7, tree4, scope)
                else .ok (pst3, tree3, scope)
          else .ok (pst2, tree2, scope)

/-- The bracketed element-type loop of the `"declare"` branch. -/
def declTypeLoop : Nat → PState → Tree → List Nat → Nat → Except Err (PState × Tree)
  | 0, _, _, _, _ => .error .outOfFuel
  | fuel + 1, pst, tree, typePath, counter =>
    if pst.endF = true ∨ counter = 0 then .ok (pst, tree)
    else if pst.token.value = "[" then
      declTypeLoop fuel pst.step tree typePath (counter + 1)
    else if pst.token.value = "]" then
      declTypeLoop fuel pst.step tree typePath (counter - 1)
    else if pst.token.category = Meta.TYP then
      match tree.insertAt typePath (.Typ pst.token.value) with
      | none => .error .parseError
      | some (tree1, _) => declTypeLoop fuel pst.step tree1 typePath counter
    else declTypeLoop fuel pst.step tree typePath counter

/-- The `"set"` branch of `build_tree`. -/
def setBranch : Nat → PState → Tree → List Nat → Except Err (PState × Tree × List Nat)
  | 0, _, _, _ => .error .outOfFuel
  | fuel + 1, pst, tree, scope =>
    let pst1 := pst.step
    if pst1.token.category ≠ Meta.REF then .error .parseError
    else
      match tree.root.getPath scope with
      | none => .error .parseError
      | some scopedNode =>
        let scope1 := scope ++ [scopedNode.nodes.length]
        match tree.insertAt scope .Assign with
        | none => .error .parseError
        | some (tree1, assignPath) =>
          match tree1.insertAt assignPath (.Identifier pst1.token.value) with
          | none => .error .parseError
          | some (tree2, _) =>
            let pst2 := pst1.step
            if pst2.token.value = "to" then
              let pst3 := pst2.step
              match pst3.token.category with
              | Meta.FUN =>
                if pst3.lookaheadIs "(" then
                  match funParamLoop fuel pst3.step.step [] [] 1 with
                  | .error e => .error e
                  | .ok (pst6, params, param_types) =>
                    if pst6.token.value = "as" then
                      let pst7 := pst6.step
                      if pst7.token.category ≠ Meta.TYP then .error .parseError
                      else
                        let pst8 := pst7.step
                        match tree2.root.getPath assignPath with
                        | none => .error .parseError
                        | some assignNode =>
                          let scope2 := scope1 ++ [assignNode.nodes.length]
                          match tree2.insertAt assignPath
                              (.FunctionContainer params param_types
                                [.Typ pst7.token.value]) with
                          | none => .error .parseError
                          | some (tree3, _) =>
                            match bodyLoop fuel pst8.step tree3 scope2 1 with
                            | .error e => .error e
                            | .ok (pst10, tree4, scope3) =>
                              match pst10.back with
                              | none => .error .parseError
                              | some pst11 =>
                                .ok (pst11, tree4, scope3.dropLast.dropLast)
                    else .error .parseError
                else .ok (pst3, tree2, scope1)
              | _ =>
                match buildExpr fuel pst3 tree2 assignPath with
                | .error e => .error e
                | .ok (pst4, tree3) => .ok (pst4, tree3, scope1.dropLast)
            else .ok (pst2, tree2, scope1)

/-- The parameter-list loop of the `fun(...)` form in the `"set"` branch. -/
def funParamLoop : Nat → PState → List String → List Data → Nat →
    Except Err (PState × List String × List Data)
  | 0, _, _, _, _ => .error .outOfFuel
  | fuel + 1, pst, params, param_types, counter =>
    if pst.endF = true ∨ counter = 0 then .ok (pst, params, param_types)
    else if pst.token.value = "(" then
      funParamLoop fuel pst.step params param_types (counter + 1)
    else if pst.token.value = ")" then
      funParamLoop fuel pst.step params param_types (counter - 1)
    else if pst.token.category = Meta.REF then
      let params1 := params ++ [pst.token.value]
      let pst1 := pst.step
      if pst1.token.value = "as" then
        let pst2 := pst1.step
        if pst2.token.category ≠ Meta.TYP then .error .parseError
        else
          funParamLoop fuel pst2.step params1
            (param_types ++ [.Typ pst2.token.value]) counter
      else funParamLoop fuel pst1.step params1 param_types counter
    else funParamLoop fuel pst.step params param_types counter

/-- The `"while"` branch of `build_tree`. -/
def whileBranch : Nat → PState → Tree → List Nat → Except Err (PState × Tree × List Nat)
  | 0, _, _, _ => .error .outOfFuel
  | fuel + 1, pst, tree, scope =>
    let pst1 := pst.step
    match tree.root.getPath scope with
    | none => .error .parseError
    | some scopedNode =>
      let scope1 := scope ++ [scopedNode.nodes.length]
      match tree.insertAt scope .While with
      | none => .error .parseError
      | some (tree1, whilePath) =>
        match tree1.insertAt whilePath .Expression with
        | none => .error .parseError
        | some (tree2, exprPath) =>
          if pst1.tokens.length - 1 ≤ pst1.index then .error .parseError
          else
            match guardLoop fuel pst1 tree2 exprPath with
            | .error e => .error e
            | .ok (pst2, tree3) =>
              if pst2.token.value = "\x7b" then
                match bodyLoop fuel pst2.step tree3 scope1 1 with
                | .error e => .error e
                | .ok (pst4, tree4, scope2) =>
                  match pst4.back with
                  | none => .error .parseError
                  | some pst5 => .ok (pst5, tree4, scope2.dropLast)
              else .error .parseError

/-- The guard-token loop of the `"while"` branch (runs until a brace). -/
def guardLoop : Nat → PState → Tree → List Nat → Except Err (PState × Tree)
  | 0, _, _, _ => .error .outOfFuel
  | fuel + 1, pst, tree, exprPath =>
    if pst.endF = true ∨ pst.token.category = Meta.BRC then .ok (pst, tree)
    else
      match buildExpr fuel pst tree exprPath with
      | .error e => .error e
      | .ok (pst1, tree1) => guardLoop fuel pst1.step tree1 exprPath

/-- The brace-counted statement loop shared by the `"while"` body and the
function body (both loops in the source have this exact shape). -/
def bodyLoop : Nat → PState → Tree → List Nat → Nat →
    Except Err (PState × Tree × List Nat)
  | 0, _, _, _, _ => .error .outOfFuel
  | fuel + 1, pst, tree, scope, counter =>
    if pst.endF = true ∨ counter = 0 then .ok (pst, tree, scope)
    else if pst.token.value = "\x7b" then
      bodyLoop fuel pst.step tree scope (counter + 1)
    else if pst.token.value = "\x7d" then
      bodyLoop fuel pst.step tree scope (counter - 1)
    else
      match buildTree fuel pst tree scope with
      | .error e => .error e
      | .ok (pst1, tree1, scope1) => bodyLoop fuel pst1.step tree1 scope1 counter

/-- `Parser::build_expression`, targeting the node at `targetPath`. -/
def buildExpr : Nat → PState → Tree → List Nat → Except Err (PState × Tree)
  | 0, _, _, _ => .error .outOfFuel
  | fuel + 1, pst, tree, targetPath =>
    match pst.token.category with
    | Meta.WHL =>
      match parseUsizeTok pst.token.value with
      | none => .error .parseError
      | some n =>
        match tree.insertAt targetPath (.Whole n) with
        | none => .error .parseError
        | some (tree1, _) => .ok (pst, tree1)
    | Meta.INT =>
      match parseIsizeTok pst.token.value with
      | none => .error .parseError
      | some n =>
        match tree.insertAt targetPath (.Integer n) with
        | none => .error .parseError
        | some (tree1, _) => .ok (pst, tree1)
    | Meta.FLT =>
      match parseF64Tok pst.token.value with
      | none => .error .parseError
      | some q =>
        match tree.insertAt targetPath (.Float q) with
        | none => .error .parseError
        | some (tree1, _) => .ok (pst, tree1)
    | Meta.BLN =>
      match parseBoolTok pst.token.value with
      | none => .error .parseError
      | some b =>
        match tree.insertAt targetPath (.Boolean b) with
        | none => .error .parseError
        | some (tree1, _) => .ok (pst, tree1)
    | Meta.TXT =>
      match tree.insertAt targetPath (.Text pst.token.value) with
      | none => .error .parseError
      | some (tree1, _) => .ok (pst, tree1)
    | Meta.REF =>
      match tree.insertAt targetPath (.Identifier pst.token.value) with
      | none => .error .parseError
      | some (tree1, idPath) =>
        if pst.lookaheadIs "(" then
          match argLoop fuel pst.step.step tree1 idPath 1 with
          | .error e => .error e
          | .ok (pst3, tree2) =>
            match pst3.back with
            | none => .error .parseError
            | some pst4 => .ok (pst4, tree2)
        else .ok (pst, tree1)
    | _ => .error .parseError

/-- The parenthesis-counted argument loop of `build_expression`. -/
def argLoop : Nat → PState → Tree → List Nat → Nat → Except Err (PState × Tree)
  | 0, _, _, _, _ => .error .outOfFuel
  | fuel + 1, pst, tree, idPath, counter =>
    if pst.endF = true ∨ counter = 0 then .ok (pst, tree)
    else if pst.token.value = "(" then
      argLoop fuel pst.step tree idPath (counter + 1)
    else if pst.token.value = ")" then
      argLoop fuel pst.step tree idPath (counter - 1)
    else
      match buildExpr fuel pst tree idPath with
      | .error e => .error e
      | .ok (pst1, tree1) => argLoop fuel pst1.step tree1 idPath counter

/-- `Parser::build_tree`: dispatch on the current token. -/
def buildTree : Nat → PState → Tree → List Nat → Except Err (PState × Tree × List Nat)
  | 0, _, _, _ => .error .outOfFuel
  | fuel + 1, pst, tree, scope =>
    match pst.token.category with
    | Meta.KEY =>
      if pst.token.value = "declare" then declareBranch fuel pst tree scope
      else if pst.token.value = "set" then setBranch fuel pst tree scope
      else if pst.token.value = "while" then whileBranch fuel pst tree scope
      else if pst.token.value = "return" then
        match tree.insertAt scope .Return with
        | none => .error .parseError
        | some (tree1, retPath) =>
          match buildExpr fuel pst.step tree1 retPath with
          | .error e => .error e
          | .ok (pst2, tree2) => .ok (pst2, tree2, scope)
      else .ok (pst, tree, scope)
    | Meta.TXT =>
      match tree.insertAt scope (.Text pst.token.value) with
      | none => .error .parseError
      | some (tree1, _) => .ok (pst, tree1, scope)
    | Meta.REF =>
      match buildExpr fuel pst tree scope with
      | .error e => .error e
      | .ok (pst1, tree1) => .ok (pst1, tree1, scope)
    | Meta.TYP =>
      match tree.insertAt scope (.Typ pst.token.value) with
      | none => .error .parseError
      | some (tree1, _) => .ok (pst, tree1, scope)
    | _ => .ok (pst, tree, scope)

/-- `Parser::parse`: dispatch until end-of-stream. -/
def parseLoop : Nat → PState → Tree → List Nat → Except Err Tree
  | 0, _, _, _ => .error .outOfFuel
  | fuel + 1, pst, tree, scope =>
    if pst.endF = true then .ok tree
    else
      match buildTree fuel pst tree scope with
      | .error e => .error e
      | .ok (pst1, tree1, scope1) => parseLoop fuel pst1.step tree1 scope1
end

/-- `create_parser` + `parse` (empty token vectors panic in `create_parser`). -/
def parseTokens (fuel : Nat) (tokens : List Token) : Except Err Tree :=
  match tokens with
  | [] => .error .parseError
  | t :: _ => parseLoop fuel ⟨tokens, 0, t, false⟩ Tree.new []

/-! ### Structural invariants of the parse tree -/

/-- The `Data::Identifier` discriminant. -/
def isIdentD : Data → Bool
  | .Identifier _ => true
  | _ => false

/-- The `Data::Type` discriminant. -/
def isTypD : Data → Bool
  | .Typ _ => true
  | _ => false

/-- The `Data::Declare` discriminant. -/
def isDeclareD : Data → Bool
  | .Declare => true
  | _ => false

/-- Well-shaped child list of a `Declare` node: either a lone `Identifier`
child, or an `Identifier` child followed by a `Type` child all of whose
children are `Type` nodes (the element types of a list type). -/
def declShape : List Node → Bool
  | [c] => isIdentD c.data
  | [c, t] => isIdentD c.data && (isTypD t.data && (t.nodes.map Node.data).all isTypD)
  | _ => false

mutual
/-- Every `Declare` node in the subtree has a well-shaped child list. -/
def nodeWS : Node → Bool
  | .mk _ d ns => (!isDeclareD d || declShape ns) && nodesWS ns

def nodesWS : List Node → Bool
  | [] => true
  | c :: rest => nodeWS c && nodesWS rest
end

mutual
/-- Every node's children are numbered `0, 1, 2, …` by their `id` fields, as
`insert` produces them. -/
def idsOK : Node → Bool
  | .mk _ _ ns => idsOKFrom ns 0

def idsOKFrom : List Node → Nat → Bool
  | [], _ => true
  | c :: rest, k => decide (c.id = k) && idsOK c && idsOKFrom rest (k + 1)
end

/-- The path exists and no node along it (endpoint included) is a `Declare`. -/
def safeFrom : Node → List Nat → Bool
  | n, [] => !isDeclareD n.data
  | n, i :: p =>
    !isDeclareD n.data &&
      (match n.nodes.get? i with
       | some c => safeFrom c p
       | none => false)

/-- Side conditions under which inserting `d` at path `p` preserves `nodeWS`:
the new leaf is not a `Declare`, appending it to a `Declare` endpoint keeps
the shape, and an insertion one step below the second child of a `Declare`
ancestor only ever adds a `Type`. -/
def insertableAt (n : Node) (p : List Nat) (d : Data) : Prop :=
  isDeclareD d = false ∧
  (∀ m, Node.getPath n p = some m → isDeclareD m.data = true →
      declShape (m.nodes ++ [.mk m.nodes.length d []]) = true) ∧
  (∀ r1 i r2 m, p = r1 ++ i :: r2 → Node.getPath n r1 = some m →
      isDeclareD m.data = true → i = 1 → r2 = [] → isTypD d = true)

/-- The running invariant on the parser's tree. -/
def TreeInv (t : Tree) : Prop := idsOK t.root = true ∧ nodeWS t.root = true

/-- Safety of paths is carried over from one tree to the next. -/
def TreePres (t t' : Tree) : Prop :=
  ∀ r, safeFrom t.root r = true → safeFrom t'.root r = true

/-! #### List bookkeeping -/

theorem lget_set_self : ∀ (l : List Node) (i : Nat) (c c' : Node),
    l.get? i = some c → (l.set i c').get? i = some c'
  | [], i, c, c', h => by cases h
  | _ :: rest, 0, c, c', _ => rfl
  | x :: rest, i + 1, c, c', h => lget_set_self rest i c c' h

theorem lget_set_other : ∀ (l : List Node) (i j : Nat) (c' : Node),
    i ≠ j → (l.set i c').get? j = l.get? j
  | [], _, _, _, _ => rfl
  | x :: rest, 0, 0, c', h => absurd rfl h
  | x :: rest, 0, j + 1, c', _ => rfl
  | x :: rest, i + 1, 0, c', _ => rfl
  | x :: rest, i + 1, j + 1, c', h =>
    lget_set_other rest i j c' (fun hij => h (by rw [hij]))

theorem lmap_set_same : ∀ (l : List Node) (i : Nat) (c c' : Node),
    l.get? i = some c → c'.data = c.data →
    (l.set i c').map Node.data = l.map Node.data
  | [], i, c, c', h, _ => by cases h
  | x :: rest, 0, c, c', h, hd => by
    cases h; simp [List.set, hd]
  | x :: rest, i + 1, c, c', h, hd => by
    simp [List.set, lmap_set_same rest i c c' h hd]

theorem lset_set : ∀ (l : List Node) (i : Nat) (a b : Node),
    (l.set i a).set i b = l.set i b
  | [], _, _, _ => rfl
  | x :: rest, 0, a, b => rfl
  | x :: rest, i + 1, a, b => by simp [List.set, lset_set rest i a b]

theorem lset_append_len : ∀ (l : List Node) (a b : Node),
    (l ++ [a]).set l.length b = l ++ [b]
  | [], a, b => rfl
  | x :: rest, a, b => by simp [List.set, lset_append_len rest a b]

theorem lget_append_left : ∀ (l l' : List Node) (i : Nat) (c : Node),
    l.get? i = some c → (l ++ l').get? i = some c
  | [], _, i, c, h => by cases h
  | x :: rest, l', 0, c, h => h
  | x :: rest, l', i + 1, c, h => lget_append_left rest l' i c h

theorem lget_append_len : ∀ (l : List Node) (a : Node),
    (l ++ [a]).get? l.length = some a
  | [], a => rfl
  | x :: rest, a => lget_append_len rest a

/-! #### Child numbering -/

theorem idsOKFrom_get? : ∀ (ns : List Node) (k j : Nat) (c : Node),
    idsOKFrom ns k = true → ns.get? j = some c →
    c.id = k + j ∧ idsOK c = true
  | [], _, _, _, _, hg => by cases hg
  | x :: rest, k, 0, c, h, hg => by
    cases hg
    simp only [idsOKFrom, Bool.and_eq_true, decide_eq_true_eq] at h
    exact ⟨h.1.1, h.1.2⟩
  | x :: rest, k, j + 1, c, h, hg => by
    simp only [idsOKFrom, Bool.and_eq_true] at h
    have := idsOKFrom_get? rest (k + 1) j c h.2 hg
    exact ⟨by omega, this.2⟩

theorem idsOKFrom_append : ∀ (ns : List Node) (k : Nat) (d : Data),
    idsOKFrom ns k = true →
    idsOKFrom (ns ++ [.mk (k + ns.length) d []]) k = true
  | [], k, d, _ => by
    simp [idsOKFrom, idsOK, Node.id]
  | x :: rest, k, d, h => by
    simp only [idsOKFrom, Bool.and_eq_true] at h
    have := idsOKFrom_append rest (k + 1) d h.2
    simp only [List.cons_append, idsOKFrom, Bool.and_eq_true]
    refine ⟨h.1, ?_⟩
    have harith : k + (x :: rest).length = (k + 1) + rest.length := by
      simp [List.length_cons]; omega
    rw [harith]
    exact this

theorem idsOKFrom_set : ∀ (ns : List Node) (k i : Nat) (c c' : Node),
    idsOKFrom ns k = true → ns.get? i = some c → c'.id = c.id →
    idsOK c' = true → idsOKFrom (ns.set i c') k = true
  | [], _, _, _, _, _, hg, _, _ => by cases hg
  | x :: rest, k, 0, c, c', h, hg, hid, hok => by
    cases hg
    simp only [idsOKFrom, Bool.and_eq_true, decide_eq_true_eq] at h
    simp only [List.set, idsOKFrom, Bool.and_eq_true, decide_eq_true_eq]
    exact ⟨⟨by rw [hid, h.1.1], hok⟩, h.2⟩
  | x :: rest, k, i + 1, c, c', h, hg, hid, hok => by
    simp only [idsOKFrom, Bool.and_eq_true] at h
    simp only [List.set, idsOKFrom, Bool.and_eq_true]
    exact ⟨h.1, idsOKFrom_set rest (k + 1) i c c' h.2 hg hid hok⟩

/-! #### `insert` appends under correct numbering -/

theorem findIdx?_ids_none : ∀ (ns : List Node) (k m s : Nat),
    idsOKFrom ns k = true → k + ns.length ≤ m →
    List.findIdx? (fun n => n.id = m) ns s = none
  | [], _, _, _, _, _ => rfl
  | x :: rest, k, m, s, h, hm => by
    simp only [idsOKFrom, Bool.and_eq_true, decide_eq_true_eq] at h
    have hx : (fun n : Node => decide (n.id = m)) x = false := by
      simp only [decide_eq_false_iff_not]
      simp only [List.length_cons] at hm
      omega
    show (if (fun n : Node => decide (n.id = m)) x = true then some s
      else List.findIdx? (fun n : Node => decide (n.id = m)) rest (s + 1)) = none
    rw [hx]
    simp only [Bool.false_eq_true, if_false]
    exact findIdx?_ids_none rest (k + 1) m (s + 1) h.2
      (by simp only [List.length_cons] at hm; omega)

theorem getChildIdx_len_none (ns : List Node) (h : idsOKFrom ns 0 = true) :
    Node.getChildIdx ns ns.length = none :=
  findIdx?_ids_none ns 0 ns.length 0 h (by omega)

theorem insert_eq_append (n : Node) (h : idsOK n = true) (d : Data) :
    Node.insert n d =
      (.mk n.id n.data (n.nodes ++ [.mk n.nodes.length d []]), [n.nodes.length]) := by
  cases n with
  | mk i0 d0 ns =>
    have hids : idsOKFrom ns 0 = true := h
    show (match Node.getChildIdx ns ns.length with
      | some x =>
        match Node.insertInList ns x d with
        | some (ns', p) => (Node.mk i0 d0 ns', x :: p)
        | none => (Node.mk i0 d0 ns, [])
      | none =>
        (Node.mk i0 d0 (ns ++ [Node.mk ns.length d []]), [ns.length])) = _
    rw [getChildIdx_len_none ns hids]
    rfl

/-! #### How `insert_at_path` transforms the tree -/

theorem getPath_nil (n : Node) : Node.getPath n [] = some n := by
  cases n
  rfl


/-- Every node reachable before an insertion is still reachable afterwards,
with the same `id` and `data`; its child data list gains exactly the inserted
item when the node sits at the insertion path and is unchanged otherwise. -/
theorem insertAtPath_getPath :
    ∀ (p : List Nat) (n : Node) (d : Data) (n' : Node) (q : List Nat),
    idsOK n = true → Node.insertAtPath n p d = some (n', q) →
    ∀ (r : List Nat) (m : Node), Node.getPath n r = some m →
      ∃ m', Node.getPath n' r = some m' ∧ m'.id = m.id ∧ m'.data = m.data ∧
        (r = p → m'.nodes.map Node.data = m.nodes.map Node.data ++ [d]) ∧
        (r ≠ p → m'.nodes.map Node.data = m.nodes.map Node.data) := by
  intro p
  induction p with
  | nil =>
    intro n d n' q hids h r m hr
    simp only [Node.insertAtPath] at h
    rw [insert_eq_append n hids d] at h
    injection h with h
    injection h with hn' hq
    cases n with
    | mk i0 d0 ns =>
      cases r with
      | nil =>
        cases hr
        refine ⟨n', by rw [← hn']; rfl, ?_, ?_, ?_, ?_⟩
        · rw [← hn']; rfl
        · rw [← hn']; rfl
        · intro _
          rw [← hn']
          simp [Node.nodes, Node.data, List.map_append]
        · intro hcontra; exact absurd rfl hcontra
      | cons j r' =>
        simp only [Node.getPath] at hr
        cases hc : ns.get? j with
        | none => rw [hc] at hr; cases hr
        | some c =>
          rw [hc] at hr
          refine ⟨m, ?_, rfl, rfl, ?_, fun _ => rfl⟩
          · rw [← hn']
            show Node.getPath (.mk i0 d0 (ns ++ [.mk ns.length d []])) (j :: r') = some m
            simp only [Node.getPath, Node.nodes]
            rw [lget_append_left ns _ j c hc]
            exact hr
          · intro hcontra; cases hcontra
  | cons i p' ih =>
    intro n d n' q hids h r m hr
    cases n with
    | mk i0 d0 ns =>
      simp only [Node.insertAtPath] at h
      cases hc : ns.get? i with
      | none => simp only [hc] at h; exact Option.noConfusion h
      | some c =>
        simp only [hc] at h
        cases hrec : Node.insertAtPath c p' d with
        | none => simp only [hrec] at h; exact Option.noConfusion h
        | some pr =>
          obtain ⟨c', q'⟩ := pr
          simp only [hrec] at h
          injection h with h
          injection h with hn' hq
          have hidc : idsOK c = true := (idsOKFrom_get? ns 0 i c hids hc).2
          have hroot := ih c d c' q' hidc hrec [] c (getPath_nil c)
          obtain ⟨cr, hcr, hcrid, hcrdata, _, _⟩ := hroot
          rw [getPath_nil c'] at hcr
          cases Option.some.inj hcr
          cases r with
          | nil =>
            cases hr
            refine ⟨n', by rw [← hn']; rfl, by rw [← hn']; rfl, by rw [← hn']; rfl,
              ?_, ?_⟩
            · intro hcontra; cases hcontra
            · intro _
              rw [← hn']
              show (ns.set i c').map Node.data = (Node.mk i0 d0 ns).nodes.map Node.data
              exact lmap_set_same ns i c c' hc hcrdata
          | cons j r' =>
            simp only [Node.getPath] at hr
            by_cases hij : j = i
            · subst hij
              rw [hc] at hr
              have := ih c d c' q' hidc hrec r' m hr
              obtain ⟨m', hm1, hm2, hm3, hm4, hm5⟩ := this
              refine ⟨m', ?_, hm2, hm3, ?_, ?_⟩
              · rw [← hn']
                show Node.getPath (.mk i0 d0 (ns.set j c')) (j :: r') = some m'
                simp only [Node.getPath, Node.nodes]
                rw [lget_set_self ns j c c' hc]
                exact hm1
              · intro he
                injection he with _ he'
                exact hm4 he'
              · intro hne
                exact hm5 (fun he => hne (by rw [he]))
            · cases hcj : ns.get? j with
              | none => rw [hcj] at hr; cases hr
              | some cj =>
                rw [hcj] at hr
                refine ⟨m, ?_, rfl, rfl, ?_, fun _ => rfl⟩
                · rw [← hn']
                  show Node.getPath (.mk i0 d0 (ns.set i c')) (j :: r') = some m
                  simp only [Node.getPath, Node.nodes]
                  rw [lget_set_other ns i j c' (fun he => hij he.symm), hcj]
                  exact hr
                · intro he
                  injection he with he' _
                  exact absurd he' hij

/-- An insertion keeps the root's `id` and `data`. -/
theorem insertAtPath_root (n : Node) (p : List Nat) (d : Data) (n' : Node)
    (q : List Nat) (hids : idsOK n = true)
    (h : Node.insertAtPath n p d = some (n', q)) :
    n'.id = n.id ∧ n'.data = n.data := by
  obtain ⟨m', h1, h2, h3, _, _⟩ :=
    insertAtPath_getPath p n d n' q hids h [] n (getPath_nil n)
  rw [getPath_nil n'] at h1
  cases Option.some.inj h1
  exact ⟨h2, h3⟩

/-- An insertion preserves the child-numbering invariant. -/
theorem insertAtPath_ids :
    ∀ (p : List Nat) (n : Node) (d : Data) (n' : Node) (q : List Nat),
    idsOK n = true → Node.insertAtPath n p d = some (n', q) →
    idsOK n' = true := by
  intro p
  induction p with
  | nil =>
    intro n d n' q hids h
    simp only [Node.insertAtPath] at h
    rw [insert_eq_append n hids d] at h
    injection h with h
    injection h with hn' _
    cases n with
    | mk i0 d0 ns =>
      rw [← hn']
      show idsOKFrom (ns ++ [.mk ns.length d []]) 0 = true
      have := idsOKFrom_append ns 0 d hids
      rwa [Nat.zero_add] at this
  | cons i p' ih =>
    intro n d n' q hids h
    cases n with
    | mk i0 d0 ns =>
      simp only [Node.insertAtPath] at h
      cases hc : ns.get? i with
      | none => simp only [hc] at h; exact Option.noConfusion h
      | some c =>
        simp only [hc] at h
        cases hrec : Node.insertAtPath c p' d with
        | none => simp only [hrec] at h; exact Option.noConfusion h
        | some pr =>
          obtain ⟨c', q'⟩ := pr
          simp only [hrec] at h
          injection h with h
          injection h with hn' _
          have hidc : idsOK c = true := (idsOKFrom_get? ns 0 i c hids hc).2
          have hcid : c'.id = c.id := (insertAtPath_root c p' d c' q' hidc hrec).1
          rw [← hn']
          show idsOKFrom (ns.set i c') 0 = true
          exact idsOKFrom_set ns 0 i c c' hids hc hcid (ih c d c' q' hidc hrec)

/-- The returned path of an insertion is the insertion path extended by the
child count of the node there. -/
theorem insertAtPath_path :
    ∀ (p : List Nat) (n : Node) (d : Data) (n' : Node) (q : List Nat) (m : Node),
    idsOK n = true → Node.getPath n p = some m →
    Node.insertAtPath n p d = some (n', q) → q = p ++ [m.nodes.length] := by
  intro p
  induction p with
  | nil =>
    intro n d n' q m hids hm h
    rw [getPath_nil n] at hm
    cases Option.some.inj hm
    simp only [Node.insertAtPath] at h
    rw [insert_eq_append n hids d] at h
    injection h with h
    injection h with _ hq
    rw [← hq]
    rfl
  | cons i p' ih =>
    intro n d n' q m hids hm h
    cases n with
    | mk i0 d0 ns =>
      simp only [Node.insertAtPath] at h
      cases hc : ns.get? i with
      | none => simp only [hc] at h; exact Option.noConfusion h
      | some c =>
        simp only [hc] at h
        cases hrec : Node.insertAtPath c p' d with
        | none => simp only [hrec] at h; exact Option.noConfusion h
        | some pr =>
          obtain ⟨c', q'⟩ := pr
          simp only [hrec] at h
          injection h with h
          injection h with _ hq
          simp only [Node.getPath, hc] at hm
          have hidc : idsOK c = true := (idsOKFrom_get? ns 0 i c hids hc).2
          rw [← hq, ih c d c' q' m hidc hm hrec]
          rfl

/-- The node found at the returned path of an insertion is the fresh leaf. -/
theorem insertAtPath_new :
    ∀ (p : List Nat) (n : Node) (d : Data) (n' : Node) (q : List Nat) (m : Node),
    idsOK n = true → Node.getPath n p = some m →
    Node.insertAtPath n p d = some (n', q) →
    Node.getPath n' q = some (.mk m.nodes.length d []) := by
  intro p
  induction p with
  | nil =>
    intro n d n' q m hids hm h
    rw [getPath_nil n] at hm
    cases Option.some.inj hm
    simp only [Node.insertAtPath] at h
    rw [insert_eq_append n hids d] at h
    injection h with h
    injection h with hn' hq
    cases n with
    | mk i0 d0 ns =>
      rw [← hn', ← hq]
      show Node.getPath (.mk i0 d0 (ns ++ [.mk ns.length d []])) [ns.length] = _
      simp only [Node.getPath, Node.nodes]
      rw [lget_append_len ns]
  | cons i p' ih =>
    intro n d n' q m hids hm h
    cases n with
    | mk i0 d0 ns =>
      simp only [Node.insertAtPath] at h
      cases hc : ns.get? i with
      | none => simp only [hc] at h; exact Option.noConfusion h
      | some c =>
        simp only [hc] at h
        cases hrec : Node.insertAtPath c p' d with
        | none => simp only [hrec] at h; exact Option.noConfusion h
        | some pr =>
          obtain ⟨c', q'⟩ := pr
          simp only [hrec] at h
          injection h with h
          injection h with hn' hq
          simp only [Node.getPath, hc] at hm
          have hidc : idsOK c = true := (idsOKFrom_get? ns 0 i c hids hc).2
          rw [← hn', ← hq]
          show Node.getPath (.mk i0 d0 (ns.set i c')) (i :: q') = _
          simp only [Node.getPath, Node.nodes]
          rw [lget_set_self ns i c c' hc]
          exact ih c d c' q' m hidc hm hrec

/-! #### Safe paths -/

theorem band_true (a b : Bool) (h : (a && b) = true) : a = true ∧ b = true := by
  cases a
  · exact Bool.noConfusion h
  · exact ⟨rfl, h⟩

theorem band_intro (a b : Bool) (ha : a = true) (hb : b = true) :
    (a && b) = true := by
  rw [ha, hb]
  rfl

theorem bnot_true (b : Bool) (h : (!b) = true) : b = false := by
  cases b
  · rfl
  · exact Bool.noConfusion h

theorem safeFrom_head (n : Node) (p : List Nat) (h : safeFrom n p = true) :
    isDeclareD n.data = false := by
  cases p with
  | nil =>
    exact bnot_true _ h
  | cons i p' =>
    exact bnot_true _ (band_true _ _ h).1

theorem safeFrom_prefix :
    ∀ (r1 : List Nat) (n : Node) (p r2 : List Nat),
    safeFrom n p = true → p = r1 ++ r2 →
    ∃ m, Node.getPath n r1 = some m ∧ isDeclareD m.data = false := by
  intro r1
  induction r1 with
  | nil =>
    intro n p r2 h _
    exact ⟨n, getPath_nil n, safeFrom_head n p h⟩
  | cons i r1' ih =>
    intro n p r2 h hp
    subst hp
    have h2 : (match n.nodes.get? i with
        | some c => safeFrom c (r1' ++ r2)
        | none => false) = true := (band_true _ _ h).2
    cases n with
    | mk i0 d0 ns =>
      cases hc : ns.get? i with
      | none =>
        rw [show (Node.mk i0 d0 ns).nodes = ns from rfl, hc] at h2
        exact Bool.noConfusion h2
      | some c =>
        rw [show (Node.mk i0 d0 ns).nodes = ns from rfl, hc] at h2
        obtain ⟨m, hm, hd⟩ := ih c (r1' ++ r2) r2 h2 rfl
        refine ⟨m, ?_, hd⟩
        simp only [Node.getPath, hc]
        exact hm

theorem safeFrom_build :
    ∀ (p : List Nat) (n : Node),
    (∀ r1 r2, p = r1 ++ r2 →
        ∃ m, Node.getPath n r1 = some m ∧ isDeclareD m.data = false) →
    safeFrom n p = true := by
  intro p
  induction p with
  | nil =>
    intro n h
    obtain ⟨m, hm, hd⟩ := h [] [] rfl
    rw [getPath_nil n] at hm
    cases Option.some.inj hm
    show (!isDeclareD n.data) = true
    rw [hd]
    rfl
  | cons i p' ih =>
    intro n h
    show (!isDeclareD n.data &&
      (match n.nodes.get? i with
       | some c => safeFrom c p'
       | none => false)) = true
    apply band_intro
    · obtain ⟨m, hm, hd⟩ := h [] (i :: p') rfl
      rw [getPath_nil n] at hm
      cases Option.some.inj hm
      rw [hd]
      rfl
    · obtain ⟨m, hm, _⟩ := h [i] p' rfl
      cases n with
      | mk i0 d0 ns =>
        simp only [Node.getPath] at hm
        cases hc : ns.get? i with
        | none => rw [hc] at hm; exact Option.noConfusion hm
        | some c =>
          rw [show (Node.mk i0 d0 ns).nodes = ns from rfl, hc]
          apply ih c
          intro r1 r2 hp'
          obtain ⟨m', hm', hd'⟩ := h (i :: r1) r2 (by rw [hp']; rfl)
          simp only [Node.getPath, hc] at hm'
          exact ⟨m', hm', hd'⟩

theorem safeFrom_pres (n : Node) (p : List Nat) (d : Data) (n' : Node)
    (q : List Nat) (hids : idsOK n = true)
    (hins : Node.insertAtPath n p d = some (n', q)) (r : List Nat)
    (hsafe : safeFrom n r = true) : safeFrom n' r = true := by
  apply safeFrom_build
  intro r1 r2 hr
  obtain ⟨m, hm, hd⟩ := safeFrom_prefix r1 n r r2 hsafe hr
  obtain ⟨m', h1, _, h3, _, _⟩ := insertAtPath_getPath p n d n' q hids hins r1 m hm
  refine ⟨m', h1, ?_⟩
  rw [h3]
  exact hd

theorem safeFrom_getPath (n : Node) (p : List Nat) (h : safeFrom n p = true) :
    ∃ m, Node.getPath n p = some m ∧ isDeclareD m.data = false :=
  safeFrom_prefix p n p [] h (p.append_nil).symm

theorem prefix_of_snoc :
    ∀ (r1 : List Nat) (p : List Nat) (r2 : List Nat) (k : Nat),
    r1 ++ r2 = p ++ [k] → r2 ≠ [] → ∃ r2', r1 ++ r2' = p := by
  intro r1
  induction r1 with
  | nil =>
    intro p r2 k h _
    exact ⟨p, rfl⟩
  | cons a r1' ih =>
    intro p r2 k h hne
    cases p with
    | nil =>
      injection h with _ h2
      obtain ⟨h3, h4⟩ := List.append_eq_nil.mp h2
      exact absurd h4 hne
    | cons b p' =>
      injection h with h1 h2
      obtain ⟨r2', hr⟩ := ih p' r2 k h2 hne
      exact ⟨r2', by rw [List.cons_append, hr, h1]⟩

theorem safeFrom_new (n : Node) (p : List Nat) (d : Data) (n' : Node)
    (q : List Nat) (hids : idsOK n = true)
    (hins : Node.insertAtPath n p d = some (n', q))
    (hsafe : safeFrom n p = true) (hd : isDeclareD d = false) :
    safeFrom n' q = true := by
  obtain ⟨m, hm, hmd⟩ := safeFrom_getPath n p hsafe
  have hq : q = p ++ [m.nodes.length] := insertAtPath_path p n d n' q m hids hm hins
  apply safeFrom_build
  intro r1 r2 hr
  by_cases hr2 : r2 = []
  · subst hr2
    rw [List.append_nil] at hr
    subst hr
    refine ⟨.mk m.nodes.length d [], insertAtPath_new p n d n' q m hids hm hins, ?_⟩
    exact hd
  · obtain ⟨r2', hpre⟩ := prefix_of_snoc r1 p r2 m.nodes.length (hr.symm.trans hq) hr2
    obtain ⟨m0, hm0, hd0⟩ := safeFrom_prefix r1 n p r2' hsafe hpre.symm
    obtain ⟨m0', h1, _, h3, _, _⟩ :=
      insertAtPath_getPath p n d n' q hids hins r1 m0 hm0
    refine ⟨m0', h1, ?_⟩
    rw [h3]
    exact hd0

theorem safeFrom_dropLast (n : Node) (p : List Nat) (h : safeFrom n p = true) :
    safeFrom n p.dropLast = true := by
  by_cases hp : p = []
  · subst hp
    exact h
  · apply safeFrom_build
    intro r1 r2 hr
    refine safeFrom_prefix r1 n p (r2 ++ [p.getLast hp]) h ?_
    conv_lhs => rw [← List.dropLast_append_getLast hp]
    rw [hr, List.append_assoc]

/-! #### Well-shapedness of `Declare` nodes is preserved by insertions -/

theorem bor_intro_right (a b : Bool) (hb : b = true) : (a || b) = true := by
  rw [hb]
  cases a <;> rfl

theorem bor_intro_not (a b : Bool) (ha : a = false) : ((!a) || b) = true := by
  rw [ha]
  rfl

theorem nodeWS_parts (i : Nat) (d : Data) (ns : List Node)
    (h : nodeWS (.mk i d ns) = true) :
    (!isDeclareD d || declShape ns) = true ∧ nodesWS ns = true :=
  band_true _ _ h

theorem nodeWS_intro (i : Nat) (d : Data) (ns : List Node)
    (h1 : (!isDeclareD d || declShape ns) = true) (h2 : nodesWS ns = true) :
    nodeWS (.mk i d ns) = true :=
  band_intro _ _ h1 h2

theorem nodeWS_decl (i : Nat) (d : Data) (ns : List Node)
    (h : nodeWS (.mk i d ns) = true) (hd : isDeclareD d = true) :
    declShape ns = true := by
  have h1 := (nodeWS_parts i d ns h).1
  rw [hd] at h1
  exact h1

theorem nodesWS_get? : ∀ (ns : List Node) (i : Nat) (c : Node),
    nodesWS ns = true → ns.get? i = some c → nodeWS c = true
  | [], _, _, _, hg => by cases hg
  | x :: rest, 0, c, h, hg => by
    cases hg
    exact (band_true _ _ h).1
  | x :: rest, i + 1, c, h, hg =>
    nodesWS_get? rest i c (band_true _ _ h).2 hg

theorem nodesWS_set : ∀ (ns : List Node) (i : Nat) (c' : Node),
    nodesWS ns = true → nodeWS c' = true → nodesWS (ns.set i c') = true
  | [], _, _, h, _ => h
  | x :: rest, 0, c', h, hc => band_intro _ _ hc (band_true _ _ h).2
  | x :: rest, i + 1, c', h, hc =>
    band_intro _ _ (band_true _ _ h).1 (nodesWS_set rest i c' (band_true _ _ h).2 hc)

theorem nodesWS_append : ∀ (ns : List Node) (c' : Node),
    nodesWS ns = true → nodeWS c' = true → nodesWS (ns ++ [c']) = true
  | [], c', _, hc => band_intro _ _ hc rfl
  | x :: rest, c', h, hc =>
    band_intro _ _ (band_true _ _ h).1 (nodesWS_append rest c' (band_true _ _ h).2 hc)

theorem declShape_cases (ns : List Node) (h : declShape ns = true) :
    (∃ c0, ns = [c0] ∧ isIdentD c0.data = true) ∨
    (∃ c0 c1, ns = [c0, c1] ∧ isIdentD c0.data = true ∧ isTypD c1.data = true ∧
      (c1.nodes.map Node.data).all isTypD = true) := by
  match ns with
  | [] => exact Bool.noConfusion h
  | [c0] => exact .inl ⟨c0, rfl, h⟩
  | [c0, c1] =>
    have h1 := band_true _ _ h
    have h2 := band_true _ _ h1.2
    exact .inr ⟨c0, c1, rfl, h1.1, h2.1, h2.2⟩
  | _ :: _ :: _ :: _ => exact Bool.noConfusion h

theorem map_eq_singleton (ns : List Node) (d0 : Data)
    (h : ns.map Node.data = [d0]) : ∃ c, ns = [c] ∧ c.data = d0 := by
  match ns with
  | [] => exact List.noConfusion h
  | [c] =>
    injection h with h1 _
    exact ⟨c, rfl, h1⟩
  | a :: b :: rest =>
    injection h with _ h2
    exact List.noConfusion h2

theorem insertableAt_of_safe (n : Node) (p : List Nat) (d : Data)
    (hs : safeFrom n p = true) (hd : isDeclareD d = false) :
    insertableAt n p d := by
  refine ⟨hd, ?_, ?_⟩
  · intro m hm hdm
    obtain ⟨m0, hm0, hd0⟩ := safeFrom_getPath n p hs
    rw [hm] at hm0
    cases Option.some.inj hm0
    rw [hdm] at hd0
    exact Bool.noConfusion hd0
  · intro r1 i r2 m hp hr1 hdm _ _
    obtain ⟨m0, hm0, hd0⟩ := safeFrom_prefix r1 n p (i :: r2) hs hp
    rw [hr1] at hm0
    cases Option.some.inj hm0
    rw [hdm] at hd0
    exact Bool.noConfusion hd0

theorem insertableAt_cons (i0 : Nat) (d0 : Data) (ns : List Node) (i : Nat)
    (p : List Nat) (d : Data) (c : Node)
    (h : insertableAt (.mk i0 d0 ns) (i :: p) d) (hc : ns.get? i = some c) :
    insertableAt c p d := by
  obtain ⟨h1, h2, h3⟩ := h
  refine ⟨h1, ?_, ?_⟩
  · intro m hm hdm
    apply h2 m ?_ hdm
    simp only [Node.getPath, hc]
    exact hm
  · intro r1 j r2 m hp hr1 hdm hj hr2
    apply h3 (i :: r1) j r2 m (by rw [hp]; rfl) ?_ hdm hj hr2
    simp only [Node.getPath, hc]
    exact hr1

/-- The key preservation lemma: under the side conditions of `insertableAt`,
an insertion keeps every `Declare` child list well-shaped. -/
theorem ws_pres :
    ∀ (p : List Nat) (n : Node) (d : Data) (n' : Node) (q : List Nat),
    idsOK n = true → nodeWS n = true → insertableAt n p d →
    Node.insertAtPath n p d = some (n', q) → nodeWS n' = true := by
  intro p
  induction p with
  | nil =>
    intro n d n' q hids hws hins h
    obtain ⟨hd1, hd2, _⟩ := hins
    simp only [Node.insertAtPath] at h
    rw [insert_eq_append n hids d] at h
    injection h with h
    injection h with hn' _
    cases n with
    | mk i0 d0 ns =>
      simp only [Node.id, Node.data, Node.nodes] at hn'
      rw [← hn']
      apply nodeWS_intro
      · by_cases hdecl : isDeclareD d0 = true
        · apply bor_intro_right
          have := hd2 (.mk i0 d0 ns) (getPath_nil _) (by simpa [Node.data] using hdecl)
          simpa [Node.nodes] using this
        · have hdf : isDeclareD d0 = false := by
            cases hb : isDeclareD d0
            · rfl
            · exact absurd hb hdecl
          exact bor_intro_not _ _ hdf
      · apply nodesWS_append _ _ (nodeWS_parts i0 d0 ns hws).2
        apply nodeWS_intro
        · exact bor_intro_not _ _ hd1
        · rfl
  | cons i p' ih =>
    intro n d n' q hids hws hins h
    cases n with
    | mk i0 d0 ns =>
      simp only [Node.insertAtPath] at h
      cases hc : ns.get? i with
      | none => simp only [hc] at h; exact Option.noConfusion h
      | some c =>
        simp only [hc] at h
        cases hrec : Node.insertAtPath c p' d with
        | none => simp only [hrec] at h; exact Option.noConfusion h
        | some pr =>
          obtain ⟨c', q'⟩ := pr
          simp only [hrec] at h
          injection h with h
          injection h with hn' _
          have hidc : idsOK c = true := (idsOKFrom_get? ns 0 i c hids hc).2
          have hwsc : nodeWS c = true :=
            nodesWS_get? ns i c (nodeWS_parts i0 d0 ns hws).2 hc
          have hinsc : insertableAt c p' d := insertableAt_cons i0 d0 ns i p' d c hins hc
          have hwsc' : nodeWS c' = true := ih c d c' q' hidc hwsc hinsc hrec
          obtain ⟨mr, hmr1, _, hmrdata, hmr4, hmr5⟩ :=
            insertAtPath_getPath p' c d c' q' hidc hrec [] c (getPath_nil c)
          rw [getPath_nil] at hmr1
          cases Option.some.inj hmr1
          rw [← hn']
          apply nodeWS_intro
          · by_cases hdecl : isDeclareD d0 = true
            · apply bor_intro_right
              have hshape : declShape ns = true := nodeWS_decl i0 d0 ns hws hdecl
              rcases declShape_cases ns hshape with ⟨c0, hns, hident⟩ |
                ⟨c0, c1, hns, hident, htyp, hall⟩
              · subst hns
                cases i with
                | zero =>
                  cases Option.some.inj hc
                  show declShape [c'] = true
                  show isIdentD c'.data = true
                  rw [hmrdata]
                  exact hident
                | succ j =>
                  cases j <;> exact Option.noConfusion hc
              · subst hns
                cases i with
                | zero =>
                  cases Option.some.inj hc
                  show declShape [c', c1] = true
                  apply band_intro
                  · rw [hmrdata]; exact hident
                  · exact band_intro _ _ htyp hall
                | succ j =>
                  cases j with
                  | zero =>
                    cases Option.some.inj hc
                    show declShape [c0, c'] = true
                    apply band_intro _ _ hident
                    apply band_intro
                    · rw [hmrdata]; exact htyp
                    · by_cases hp' : p' = []
                      · rw [hmr4 hp'.symm, List.all_append]
                        apply band_intro _ _ hall
                        have htypd : isTypD d = true := by
                          obtain ⟨_, _, h3⟩ := hins
                          exact h3 [] 1 p' (.mk i0 d0 [c0, c]) rfl (getPath_nil _)
                            (by simpa [Node.data] using hdecl) rfl hp'
                        show (isTypD d && true) = true
                        exact band_intro _ _ htypd rfl
                      · rw [hmr5 (fun he => hp' he.symm)]
                        exact hall
                  | succ j' =>
                    exact Option.noConfusion hc
            · have hdf : isDeclareD d0 = false := by
                cases hb : isDeclareD d0
                · rfl
                · exact absurd hb hdecl
              exact bor_intro_not _ _ hdf
          · exact nodesWS_set ns i c' (nodeWS_parts i0 d0 ns hws).2 hwsc'

/-- Inserting a bare `Declare` at a safe path and then immediately giving it
its `Identifier` child - the parser's only way of creating `Declare` nodes -
restores well-shapedness. -/
theorem declare_pair :
    ∀ (p : List Nat) (n : Node) (n1 : Node) (q : List Nat) (s : String)
      (n2 : Node) (q2 : List Nat),
    idsOK n = true → nodeWS n = true → safeFrom n p = true →
    Node.insertAtPath n p .Declare = some (n1, q) →
    Node.insertAtPath n1 q (.Identifier s) = some (n2, q2) →
    nodeWS n2 = true := by
  intro p
  induction p with
  | nil =>
    intro n n1 q s n2 q2 hids hws hsafe h1 h2
    simp only [Node.insertAtPath] at h1
    rw [insert_eq_append n hids .Declare] at h1
    injection h1 with h1
    injection h1 with hn1 hq
    cases n with
    | mk i0 d0 ns =>
      simp only [Node.id, Node.data, Node.nodes] at hn1 hq
      rw [← hn1, ← hq] at h2
      have hD : Node.insert (.mk ns.length .Declare []) (.Identifier s) =
          (.mk ns.length .Declare [.mk 0 (.Identifier s) []], [0]) := rfl
      simp only [Node.insertAtPath, lget_append_len, hD] at h2
      injection h2 with h2
      injection h2 with hn2 _
      rw [← hn2, lset_append_len]
      apply nodeWS_intro
      · exact bor_intro_not _ _ (safeFrom_head (Node.mk i0 d0 ns) [] hsafe)
      · apply nodesWS_append _ _ (nodeWS_parts i0 d0 ns hws).2
        rfl
  | cons i p' ih =>
    intro n n1 q s n2 q2 hids hws hsafe h1 h2
    cases n with
    | mk i0 d0 ns =>
      simp only [Node.insertAtPath] at h1
      cases hc : ns.get? i with
      | none => simp only [hc] at h1; exact Option.noConfusion h1
      | some c =>
        simp only [hc] at h1
        cases hrec1 : Node.insertAtPath c p' .Declare with
        | none => simp only [hrec1] at h1; exact Option.noConfusion h1
        | some pr =>
          obtain ⟨c1, q1⟩ := pr
          simp only [hrec1] at h1
          injection h1 with h1
          injection h1 with hn1 hq
          rw [← hn1, ← hq] at h2
          simp only [Node.insertAtPath, lget_set_self ns i c c1 hc] at h2
          cases hrec2 : Node.insertAtPath c1 q1 (.Identifier s) with
          | none => simp only [hrec2] at h2; exact Option.noConfusion h2
          | some pr2 =>
            obtain ⟨c2, q2m⟩ := pr2
            simp only [hrec2] at h2
            injection h2 with h2
            injection h2 with hn2 _
            have hidc : idsOK c = true := (idsOKFrom_get? ns 0 i c hids hc).2
            have hwsc : nodeWS c = true :=
              nodesWS_get? ns i c (nodeWS_parts i0 d0 ns hws).2 hc
            have hsafec : safeFrom c p' = true := by
              have h2s : (match (Node.mk i0 d0 ns).nodes.get? i with
                  | some cc => safeFrom cc p'
                  | none => false) = true := (band_true _ _ hsafe).2
              simp only [Node.nodes, hc] at h2s
              exact h2s
            have hws2 : nodeWS c2 = true := ih c c1 q1 s c2 q2m hidc hwsc hsafec hrec1 hrec2
            rw [← hn2, lset_set]
            apply nodeWS_intro
            · exact bor_intro_not _ _ (safeFrom_head (Node.mk i0 d0 ns) (i :: p') hsafe)
            · exact nodesWS_set ns i c2 (nodeWS_parts i0 d0 ns hws).2 hws2

/-! #### The same facts at the `Tree` level -/

theorem tree_insertAt_some (t : Tree) (p : List Nat) (d : Data) (t1 : Tree)
    (q : List Nat) (h : Tree.insertAt t p d = some (t1, q)) :
    Node.insertAtPath t.root p d = some (t1.root, q) := by
  unfold Tree.insertAt at h
  cases hin : Node.insertAtPath t.root p d with
  | none => rw [hin] at h; exact Option.noConfusion h
  | some pr =>
    obtain ⟨n', q'⟩ := pr
    simp only [hin, Option.map] at h
    injection h with h
    injection h with h1 h2
    rw [← h1, ← h2]

theorem tree_insertAt_path (t : Tree) (p : List Nat) (d : Data) (t1 : Tree)
    (q : List Nat) (m : Node) (hids : idsOK t.root = true)
    (hm : Node.getPath t.root p = some m)
    (h : Tree.insertAt t p d = some (t1, q)) : q = p ++ [m.nodes.length] :=
  insertAtPath_path p t.root d t1.root q m hids hm (tree_insertAt_some t p d t1 q h)

/-- Inserting non-`Declare` data at a safe path keeps the tree invariant, makes
the new node's path safe, and preserves safety of all paths. -/
theorem tree_insert_safe (t : Tree) (p : List Nat) (d : Data) (t1 : Tree)
    (q : List Nat) (hinv : TreeInv t) (hs : safeFrom t.root p = true)
    (hd : isDeclareD d = false) (hins : Tree.insertAt t p d = some (t1, q)) :
    TreeInv t1 ∧ safeFrom t1.root q = true ∧ TreePres t t1 := by
  obtain ⟨hids, hws⟩ := hinv
  have h := tree_insertAt_some t p d t1 q hins
  exact ⟨⟨insertAtPath_ids p _ d _ q hids h,
      ws_pres p _ d _ q hids hws (insertableAt_of_safe _ p d hs hd) h⟩,
    safeFrom_new _ p d _ q hids h hs hd,
    fun r hr => safeFrom_pres _ p d _ q hids h r hr⟩

/-- Inserting a `Type` leaf at an existing non-`Declare` node (the element-type
loop target) keeps the tree invariant. -/
theorem tree_insert_typ (t : Tree) (p : List Nat) (s : String) (m : Node)
    (t1 : Tree) (q : List Nat) (hinv : TreeInv t)
    (hm : Node.getPath t.root p = some m) (hmd : isDeclareD m.data = false)
    (hins : Tree.insertAt t p (.Typ s) = some (t1, q)) :
    TreeInv t1 ∧
      (∃ m', Node.getPath t1.root p = some m' ∧ isDeclareD m'.data = false) ∧
      TreePres t t1 := by
  obtain ⟨hids, hws⟩ := hinv
  have h := tree_insertAt_some t p (.Typ s) t1 q hins
  have hia : insertableAt t.root p (.Typ s) := by
    refine ⟨rfl, ?_, ?_⟩
    · intro m2 hm2 hdm2
      rw [hm] at hm2
      cases Option.some.inj hm2
      rw [hdm2] at hmd
      exact Bool.noConfusion hmd
    · intro _ _ _ _ _ _ _ _ _
      rfl
  obtain ⟨m', h1, _, h3, _, _⟩ := insertAtPath_getPath p _ (.Typ s) _ q hids h p m hm
  exact ⟨⟨insertAtPath_ids p _ _ _ q hids h, ws_pres p _ _ _ q hids hws hia h⟩,
    ⟨m', h1, by rw [h3]; exact hmd⟩,
    fun r hr => safeFrom_pres _ p _ _ q hids h r hr⟩

/-- The parser's `Declare`-then-`Identifier` insertion pair: the tree invariant
survives and the fresh `Declare` node carries exactly its `Identifier` child. -/
theorem tree_declare_pair (t : Tree) (scope : List Nat) (s : String)
    (t1 t2 : Tree) (declPath q2 : List Nat) (hinv : TreeInv t)
    (hs : safeFrom t.root scope = true)
    (h1 : Tree.insertAt t scope .Declare = some (t1, declPath))
    (h2 : Tree.insertAt t1 declPath (.Identifier s) = some (t2, q2)) :
    TreeInv t2 ∧ TreePres t t2 ∧
      ∃ dm, Node.getPath t2.root declPath = some dm ∧ dm.data = .Declare ∧
        dm.nodes.map Node.data = [.Identifier s] := by
  obtain ⟨hids, hws⟩ := hinv
  have hn1 := tree_insertAt_some t scope .Declare t1 declPath h1
  have hn2 := tree_insertAt_some t1 declPath (.Identifier s) t2 q2 h2
  have hids1 : idsOK t1.root = true := insertAtPath_ids scope _ .Declare _ declPath hids hn1
  have hids2 : idsOK t2.root = true := insertAtPath_ids declPath _ _ _ q2 hids1 hn2
  have hws2 : nodeWS t2.root = true :=
    declare_pair scope t.root t1.root declPath s t2.root q2 hids hws hs hn1 hn2
  obtain ⟨m, hm, _⟩ := safeFrom_getPath t.root scope hs
  have hnew : Node.getPath t1.root declPath = some (.mk m.nodes.length .Declare []) :=
    insertAtPath_new scope _ .Declare _ declPath m hids hm hn1
  obtain ⟨dm, hdm1, _, hdm3, hdm4, _⟩ :=
    insertAtPath_getPath declPath t1.root (.Identifier s) t2.root q2 hids1 hn2 declPath _ hnew
  refine ⟨⟨hids2, hws2⟩, ?_, ⟨dm, hdm1, hdm3, hdm4 rfl⟩⟩
  intro r hr
  exact safeFrom_pres _ declPath _ _ q2 hids1 hn2 r
    (safeFrom_pres _ scope _ _ declPath hids hn1 r hr)

/-- Inserting the declared `Type` into a `Declare` node that already has its
`Identifier` child: the invariant survives and the `Type` node sits at child 1. -/
theorem tree_insert_decl_typ (t : Tree) (declPath : List Nat) (s s0 : String)
    (dm : Node) (t1 : Tree) (typePath : List Nat) (hinv : TreeInv t)
    (hdm : Node.getPath t.root declPath = some dm) (hdmd : dm.data = .Declare)
    (hdmc : dm.nodes.map Node.data = [.Identifier s0])
    (hins : Tree.insertAt t declPath (.Typ s) = some (t1, typePath)) :
    TreeInv t1 ∧ TreePres t t1 ∧ typePath = declPath ++ [1] ∧
      (∃ tm, Node.getPath t1.root typePath = some tm ∧ isDeclareD tm.data = false) := by
  obtain ⟨hids, hws⟩ := hinv
  have h := tree_insertAt_some t declPath (.Typ s) t1 typePath hins
  obtain ⟨c, hc1, hc2⟩ := map_eq_singleton dm.nodes _ hdmc
  have hlen : dm.nodes.length = 1 := by rw [hc1]; rfl
  have hia : insertableAt t.root declPath (.Typ s) := by
    refine ⟨rfl, ?_, ?_⟩
    · intro m2 hm2 _
      rw [hdm] at hm2
      cases Option.some.inj hm2
      rw [hlen, hc1]
      show declShape [c, .mk 1 (.Typ s) []] = true
      apply band_intro
      · rw [hc2]
        rfl
      · rfl
    · intro _ _ _ _ _ _ _ _ _
      rfl
  have hpath : typePath = declPath ++ [1] := by
    have := insertAtPath_path declPath _ (.Typ s) _ typePath dm hids hdm h
    rw [hlen] at this
    exact this
  have hnew := insertAtPath_new declPath _ (.Typ s) _ typePath dm hids hdm h
  exact ⟨⟨insertAtPath_ids declPath _ _ _ typePath hids h,
      ws_pres declPath _ _ _ typePath hids hws hia h⟩,
    fun r hr => safeFrom_pres _ declPath _ _ typePath hids h r hr,
    hpath, ⟨.mk dm.nodes.length (.Typ s) [], hnew, rfl⟩⟩

/-! #### The parser maintains the invariant (fuel induction) -/

/-- The conjunction of the invariant statements for all mutually recursive
parser functions at a given fuel: each, when it succeeds on a tree satisfying
`TreeInv` with a safe scope (for `declTypeLoop`, an existing non-`Declare`
target), yields a tree satisfying `TreeInv`, a safe result scope, and
preserves safety of every path. -/
def PInv (fuel : Nat) : Prop :=
  (∀ pst t scope pst' t' scope',
      declareBranch fuel pst t scope = .ok (pst', t', scope') →
      TreeInv t → safeFrom t.root scope = true →
      TreeInv t' ∧ safeFrom t'.root scope' = true ∧ TreePres t t') ∧
  (∀ pst t tp counter pst' t',
      declTypeLoop fuel pst t tp counter = .ok (pst', t') →
      TreeInv t →
      (∃ m, Node.getPath t.root tp = some m ∧ isDeclareD m.data = false) →
      TreeInv t' ∧ TreePres t t') ∧
  (∀ pst t scope pst' t' scope',
      setBranch fuel pst t scope = .ok (pst', t', scope') →
      TreeInv t → safeFrom t.root scope = true →
      TreeInv t' ∧ safeFrom t'.root scope' = true ∧ TreePres t t') ∧
  (∀ pst t scope pst' t' scope',
      whileBranch fuel pst t scope = .ok (pst', t', scope') →
      TreeInv t → safeFrom t.root scope = true →
      TreeInv t' ∧ safeFrom t'.root scope' = true ∧ TreePres t t') ∧
  (∀ pst t ep pst' t',
      guardLoop fuel pst t ep = .ok (pst', t') →
      TreeInv t → safeFrom t.root ep = true →
      TreeInv t' ∧ TreePres t t') ∧
  (∀ pst t scope counter pst' t' scope',
      bodyLoop fuel pst t scope counter = .ok (pst', t', scope') →
      TreeInv t → safeFrom t.root scope = true →
      TreeInv t' ∧ safeFrom t'.root scope' = true ∧ TreePres t t') ∧
  (∀ pst t tp pst' t',
      buildExpr fuel pst t tp = .ok (pst', t') →
      TreeInv t → safeFrom t.root tp = true →
      TreeInv t' ∧ TreePres t t') ∧
  (∀ pst t ip counter pst' t',
      argLoop fuel pst t ip counter = .ok (pst', t') →
      TreeInv t → safeFrom t.root ip = true →
      TreeInv t' ∧ TreePres t t') ∧
  (∀ pst t scope pst' t' scope',
      buildTree fuel pst t scope = .ok (pst', t', scope') →
      TreeInv t → safeFrom t.root scope = true →
      TreeInv t' ∧ safeFrom t'.root scope' = true ∧ TreePres t t') ∧
  (∀ pst t scope t',
      parseLoop fuel pst t scope = .ok t' →
      TreeInv t → safeFrom t.root scope = true →
      nodeWS t'.root = true)

theorem pinv_zero : PInv 0 :=
  ⟨fun _ _ _ _ _ _ h => Except.noConfusion h,
   fun _ _ _ _ _ _ h => Except.noConfusion h,
   fun _ _ _ _ _ _ h => Except.noConfusion h,
   fun _ _ _ _ _ _ h => Except.noConfusion h,
   fun _ _ _ _ _ h => Except.noConfusion h,
   fun _ _ _ _ _ _ _ h => Except.noConfusion h,
   fun _ _ _ _ _ h => Except.noConfusion h,
   fun _ _ _ _ _ _ h => Except.noConfusion h,
   fun _ _ _ _ _ _ h => Except.noConfusion h,
   fun _ _ _ _ h => Except.noConfusion h⟩

theorem step_declare (fuel : Nat) (IH : PInv fuel) :
    ∀ pst t scope pst' t' scope',
    declareBranch (fuel + 1) pst t scope = .ok (pst', t', scope') →
    TreeInv t → safeFrom t.root scope = true →
    TreeInv t' ∧ safeFrom t'.root scope' = true ∧ TreePres t t' := by
  intro pst t scope pst' t' scope' h hinv hsafe
  simp only [declareBranch] at h
  split at h
  · exact Except.noConfusion h
  · cases hI1 : t.insertAt scope .Declare with
    | none => simp only [hI1] at h; exact Except.noConfusion h
    | some pr1 =>
      obtain ⟨tree1, declPath⟩ := pr1
      simp only [hI1] at h
      cases hI2 : tree1.insertAt declPath (.Identifier pst.step.token.value) with
      | none => simp only [hI2] at h; exact Except.noConfusion h
      | some pr2 =>
        obtain ⟨tree2, path2⟩ := pr2
        simp only [hI2] at h
        obtain ⟨hinv2, hpres2, dm, hdm, hdmd, hdmc⟩ :=
          tree_declare_pair t scope pst.step.token.value tree1 tree2 declPath path2
            hinv hsafe hI1 hI2
        split at h
        · split at h
          · exact Except.noConfusion h
          · cases hI3 : tree2.insertAt declPath (.Typ pst.step.step.step.token.value) with
            | none => simp only [hI3] at h; exact Except.noConfusion h
            | some pr3 =>
              obtain ⟨tree3, typePath⟩ := pr3
              simp only [hI3] at h
              obtain ⟨hinv3, hpres3, htp, tm, htm, htmd⟩ :=
                tree_insert_decl_typ tree2 declPath pst.step.step.step.token.value
                  pst.step.token.value dm tree3 typePath hinv2 hdm hdmd hdmc hI3
              split at h
              · cases hL : declTypeLoop fuel pst.step.step.step.step.step tree3 typePath 1 with
                | error e => simp only [hL] at h; exact Except.noConfusion h
                | ok pr4 =>
                  obtain ⟨pst6, tree4⟩ := pr4
                  simp only [hL] at h
                  obtain ⟨hinv4, hpres4⟩ :=
                    IH.2.1 pst.step.step.step.step.step tree3 typePath 1 pst6 tree4 hL
                      hinv3 ⟨tm, htm, htmd⟩
                  cases hB : pst6.back with
                  | none => simp only [hB] at h; exact Except.noConfusion h
                  | some pst7 =>
                    simp only [hB] at h
                    injection h with h
                    injection h with h1 h
                    injection h with h2 h3
                    subst h1; subst h2; subst h3
                    exact ⟨hinv4, hpres4 scope (hpres3 scope (hpres2 scope hsafe)),
                      fun r hr => hpres4 r (hpres3 r (hpres2 r hr))⟩
              · injection h with h
                injection h with h1 h
                injection h with h2 h3
                subst h1; subst h2; subst h3
                exact ⟨hinv3, hpres3 scope (hpres2 scope hsafe),
                  fun r hr => hpres3 r (hpres2 r hr)⟩
        · injection h with h
          injection h with h1 h
          injection h with h2 h3
          subst h1; subst h2; subst h3
          exact ⟨hinv2, hpres2 scope hsafe, hpres2⟩

theorem step_decltype (fuel : Nat) (IH : PInv fuel) :
    ∀ pst t tp counter pst' t',
    declTypeLoop (fuel + 1) pst t tp counter = .ok (pst', t') →
    TreeInv t →
    (∃ m, Node.getPath t.root tp = some m ∧ isDeclareD m.data = false) →
    TreeInv t' ∧ TreePres t t' := by
  intro pst t tp counter pst' t' h hinv hm
  simp only [declTypeLoop] at h
  split at h
  · injection h with h
    injection h with h1 h2
    subst h1; subst h2
    exact ⟨hinv, fun r hr => hr⟩
  · split at h
    · exact IH.2.1 pst.step t tp (counter + 1) pst' t' h hinv hm
    · split at h
      · exact IH.2.1 pst.step t tp (counter - 1) pst' t' h hinv hm
      · split at h
        · cases hI : t.insertAt tp (.Typ pst.token.value) with
          | none => simp only [hI] at h; exact Except.noConfusion h
          | some pr =>
            obtain ⟨tree1, path1⟩ := pr
            simp only [hI] at h
            obtain ⟨m, hm1, hm2⟩ := hm
            obtain ⟨hinv1, hm', hpres1⟩ :=
              tree_insert_typ t tp pst.token.value m tree1 path1 hinv hm1 hm2 hI
            obtain ⟨hinv', hpres'⟩ := IH.2.1 pst.step tree1 tp counter pst' t' h hinv1 hm'
            exact ⟨hinv', fun r hr => hpres' r (hpres1 r hr)⟩
        · exact IH.2.1 pst.step t tp counter pst' t' h hinv hm

theorem step_guard (fuel : Nat) (IH : PInv fuel) :
    ∀ pst t ep pst' t',
    guardLoop (fuel + 1) pst t ep = .ok (pst', t') →
    TreeInv t → safeFrom t.root ep = true →
    TreeInv t' ∧ TreePres t t' := by
  intro pst t ep pst' t' h hinv hsafe
  simp only [guardLoop] at h
  split at h
  · injection h with h
    injection h with h1 h2
    subst h1; subst h2
    exact ⟨hinv, fun r hr => hr⟩
  · cases hE : buildExpr fuel pst t ep with
    | error e => simp only [hE] at h; exact Except.noConfusion h
    | ok pr =>
      obtain ⟨pst1, tree1⟩ := pr
      simp only [hE] at h
      obtain ⟨hinv1, hpres1⟩ := IH.2.2.2.2.2.2.1 pst t ep pst1 tree1 hE hinv hsafe
      obtain ⟨hinv', hpres'⟩ :=
        IH.2.2.2.2.1 pst1.step tree1 ep pst' t' h hinv1 (hpres1 ep hsafe)
      exact ⟨hinv', fun r hr => hpres' r (hpres1 r hr)⟩

theorem step_arg (fuel : Nat) (IH : PInv fuel) :
    ∀ pst t ip counter pst' t',
    argLoop (fuel + 1) pst t ip counter = .ok (pst', t') →
    TreeInv t → safeFrom t.root ip = true →
    TreeInv t' ∧ TreePres t t' := by
  intro pst t ip counter pst' t' h hinv hsafe
  simp only [argLoop] at h
  split at h
  · injection h with h
    injection h with h1 h2
    subst h1; subst h2
    exact ⟨hinv, fun r hr => hr⟩
  · split at h
    · exact IH.2.2.2.2.2.2.2.1 pst.step t ip (counter + 1) pst' t' h hinv hsafe
    · split at h
      · exact IH.2.2.2.2.2.2.2.1 pst.step t ip (counter - 1) pst' t' h hinv hsafe
      · cases hE : buildExpr fuel pst t ip with
        | error e => simp only [hE] at h; exact Except.noConfusion h
        | ok pr =>
          obtain ⟨pst1, tree1⟩ := pr
          simp only [hE] at h
          obtain ⟨hinv1, hpres1⟩ := IH.2.2.2.2.2.2.1 pst t ip pst1 tree1 hE hinv hsafe
          obtain ⟨hinv', hpres'⟩ :=
            IH.2.2.2.2.2.2.2.1 pst1.step tree1 ip counter pst' t' h hinv1 (hpres1 ip hsafe)
          exact ⟨hinv', fun r hr => hpres' r (hpres1 r hr)⟩

theorem step_buildExpr (fuel : Nat) (IH : PInv fuel) :
    ∀ pst t tp pst' t',
    buildExpr (fuel + 1) pst t tp = .ok (pst', t') →
    TreeInv t → safeFrom t.root tp = true →
    TreeInv t' ∧ TreePres t t' := by
  intro pst t tp pst' t' h hinv hsafe
  simp only [buildExpr] at h
  split at h
  · -- WHL
    cases hP : parseUsizeTok pst.token.value with
    | none => simp only [hP] at h; exact Except.noConfusion h
    | some n =>
      simp only [hP] at h
      cases hI : t.insertAt tp (.Whole n) with
      | none => simp only [hI] at h; exact Except.noConfusion h
      | some pr =>
        obtain ⟨tree1, path1⟩ := pr
        simp only [hI] at h
        obtain ⟨hinv1, _, hpres1⟩ := tree_insert_safe t tp (.Whole n) tree1 path1 hinv hsafe rfl hI
        injection h with h
        injection h with h1 h2
        subst h1; subst h2
        exact ⟨hinv1, hpres1⟩
  · -- INT
    cases hP : parseIsizeTok pst.token.value with
    | none => simp only [hP] at h; exact Except.noConfusion h
    | some n =>
      simp only [hP] at h
      cases hI : t.insertAt tp (.Integer n) with
      | none => simp only [hI] at h; exact Except.noConfusion h
      | some pr =>
        obtain ⟨tree1, path1⟩ := pr
        simp only [hI] at h
        obtain ⟨hinv1, _, hpres1⟩ := tree_insert_safe t tp (.Integer n) tree1 path1 hinv hsafe rfl hI
        injection h with h
        injection h with h1 h2
        subst h1; subst h2
        exact ⟨hinv1, hpres1⟩
  · -- FLT
    cases hP : parseF64Tok pst.token.value with
    | none => simp only [hP] at h; exact Except.noConfusion h
    | some n =>
      simp only [hP] at h
      cases hI : t.insertAt tp (.Float n) with
      | none => simp only [hI] at h; exact Except.noConfusion h
      | some pr =>
        obtain ⟨tree1, path1⟩ := pr
        simp only [hI] at h
        obtain ⟨hinv1, _, hpres1⟩ := tree_insert_safe t tp (.Float n) tree1 path1 hinv hsafe rfl hI
        injection h with h
        injection h with h1 h2
        subst h1; subst h2
        exact ⟨hinv1, hpres1⟩
  · -- BLN
    cases hP : parseBoolTok pst.token.value with
    | none => simp only [hP] at h; exact Except.noConfusion h
    | some b =>
      simp only [hP] at h
      cases hI : t.insertAt tp (.Boolean b) with
      | none => simp only [hI] at h; exact Except.noConfusion h
      | some pr =>
        obtain ⟨tree1, path1⟩ := pr
        simp only [hI] at h
        obtain ⟨hinv1, _, hpres1⟩ := tree_insert_safe t tp (.Boolean b) tree1 path1 hinv hsafe rfl hI
        injection h with h
        injection h with h1 h2
        subst h1; subst h2
        exact ⟨hinv1, hpres1⟩
  · -- TXT
    cases hI : t.insertAt tp (.Text pst.token.value) with
    | none => simp only [hI] at h; exact Except.noConfusion h
    | some pr =>
      obtain ⟨tree1, path1⟩ := pr
      simp only [hI] at h
      obtain ⟨hinv1, _, hpres1⟩ := tree_insert_safe t tp (.Text pst.token.value) tree1 path1 hinv hsafe rfl hI
      injection h with h
      injection h with h1 h2
      subst h1; subst h2
      exact ⟨hinv1, hpres1⟩
  · -- REF
    cases hI : t.insertAt tp (.Identifier pst.token.value) with
    | none => simp only [hI] at h; exact Except.noConfusion h
    | some pr =>
      obtain ⟨tree1, idPath⟩ := pr
      simp only [hI] at h
      obtain ⟨hinv1, hsafeID, hpres1⟩ := tree_insert_safe t tp (.Identifier pst.token.value) tree1 idPath hinv hsafe rfl hI
      split at h
      · cases hA : argLoop fuel pst.step.step tree1 idPath 1 with
        | error e => simp only [hA] at h; exact Except.noConfusion h
        | ok pr2 =>
          obtain ⟨pst3, tree2⟩ := pr2
          simp only [hA] at h
          obtain ⟨hinv2, hpres2⟩ :=
            IH.2.2.2.2.2.2.2.1 pst.step.step tree1 idPath 1 pst3 tree2 hA hinv1 hsafeID
          cases hB : pst3.back with
          | none => simp only [hB] at h; exact Except.noConfusion h
          | some pst4 =>
            simp only [hB] at h
            injection h with h
            injection h with h1 h2
            subst h1; subst h2
            exact ⟨hinv2, fun r hr => hpres2 r (hpres1 r hr)⟩
      · injection h with h
        injection h with h1 h2
        subst h1; subst h2
        exact ⟨hinv1, hpres1⟩
  · exact Except.noConfusion h

theorem step_body (fuel : Nat) (IH : PInv fuel) :
    ∀ pst t scope counter pst' t' scope',
    bodyLoop (fuel + 1) pst t scope counter = .ok (pst', t', scope') →
    TreeInv t → safeFrom t.root scope = true →
    TreeInv t' ∧ safeFrom t'.root scope' = true ∧ TreePres t t' := by
  intro pst t scope counter pst' t' scope' h hinv hsafe
  simp only [bodyLoop] at h
  split at h
  · injection h with h
    injection h with h1 h
    injection h with h2 h3
    subst h1; subst h2; subst h3
    exact ⟨hinv, hsafe, fun r hr => hr⟩
  · split at h
    · exact IH.2.2.2.2.2.1 pst.step t scope (counter + 1) pst' t' scope' h hinv hsafe
    · split at h
      · exact IH.2.2.2.2.2.1 pst.step t scope (counter - 1) pst' t' scope' h hinv hsafe
      · cases hT : buildTree fuel pst t scope with
        | error e => simp only [hT] at h; exact Except.noConfusion h
        | ok pr =>
          obtain ⟨pst1, pr2⟩ := pr
          obtain ⟨tree1, scope1⟩ := pr2
          simp only [hT] at h
          obtain ⟨hinv1, hsafe1, hpres1⟩ :=
            IH.2.2.2.2.2.2.2.2.1 pst t scope pst1 tree1 scope1 hT hinv hsafe
          obtain ⟨hinv', hsafe', hpres'⟩ :=
            IH.2.2.2.2.2.1 pst1.step tree1 scope1 counter pst' t' scope' h hinv1 hsafe1
          exact ⟨hinv', hsafe', fun r hr => hpres' r (hpres1 r hr)⟩

theorem step_while (fuel : Nat) (IH : PInv fuel) :
    ∀ pst t scope pst' t' scope',
    whileBranch (fuel + 1) pst t scope = .ok (pst', t', scope') →
    TreeInv t → safeFrom t.root scope = true →
    TreeInv t' ∧ safeFrom t'.root scope' = true ∧ TreePres t t' := by
  intro pst t scope pst' t' scope' h hinv hsafe
  simp only [whileBranch] at h
  cases hGS : t.root.getPath scope with
  | none => simp only [hGS] at h; exact Except.noConfusion h
  | some scopedNode =>
    simp only [hGS] at h
    cases hI1 : t.insertAt scope .While with
    | none => simp only [hI1] at h; exact Except.noConfusion h
    | some pr1 =>
      obtain ⟨tree1, whilePath⟩ := pr1
      simp only [hI1] at h
      obtain ⟨hinv1, hsafeWP, hpres1⟩ :=
        tree_insert_safe t scope .While tree1 whilePath hinv hsafe rfl hI1
      have hWP : whilePath = scope ++ [scopedNode.nodes.length] :=
        tree_insertAt_path t scope .While tree1 whilePath scopedNode hinv.1 hGS hI1
      cases hI2 : tree1.insertAt whilePath .Expression with
      | none => simp only [hI2] at h; exact Except.noConfusion h
      | some pr2 =>
        obtain ⟨tree2, exprPath⟩ := pr2
        simp only [hI2] at h
        obtain ⟨hinv2, hsafeEP, hpres2⟩ :=
          tree_insert_safe tree1 whilePath .Expression tree2 exprPath hinv1 hsafeWP rfl hI2
        split at h
        · exact Except.noConfusion h
        · cases hG : guardLoop fuel pst.step tree2 exprPath with
          | error e => simp only [hG] at h; exact Except.noConfusion h
          | ok pr3 =>
            obtain ⟨pst2, tree3⟩ := pr3
            simp only [hG] at h
            obtain ⟨hinv3, hpres3⟩ :=
              IH.2.2.2.2.1 pst.step tree2 exprPath pst2 tree3 hG hinv2 hsafeEP
            split at h
            · cases hBody : bodyLoop fuel pst2.step tree3
                  (scope ++ [scopedNode.nodes.length]) 1 with
              | error e => simp only [hBody] at h; exact Except.noConfusion h
              | ok pr4 =>
                obtain ⟨pst4, pr5⟩ := pr4
                obtain ⟨tree4, scope2⟩ := pr5
                simp only [hBody] at h
                have hsafeS1 : safeFrom tree3.root (scope ++ [scopedNode.nodes.length]) = true := by
                  rw [← hWP]
                  exact hpres3 whilePath (hpres2 whilePath hsafeWP)
                obtain ⟨hinv4, hsafe2, hpres4⟩ :=
                  IH.2.2.2.2.2.1 pst2.step tree3 (scope ++ [scopedNode.nodes.length]) 1
                    pst4 tree4 scope2 hBody hinv3 hsafeS1
                cases hB : pst4.back with
                | none => simp only [hB] at h; exact Except.noConfusion h
                | some pst5 =>
                  simp only [hB] at h
                  injection h with h
                  injection h with h1 h
                  injection h with h2 h3
                  subst h1; subst h2; subst h3
                  exact ⟨hinv4, safeFrom_dropLast _ _ hsafe2,
                    fun r hr => hpres4 r (hpres3 r (hpres2 r (hpres1 r hr)))⟩
            · exact Except.noConfusion h

theorem step_set (fuel : Nat) (IH : PInv fuel) :
    ∀ pst t scope pst' t' scope',
    setBranch (fuel + 1) pst t scope = .ok (pst', t', scope') →
    TreeInv t → safeFrom t.root scope = true →
    TreeInv t' ∧ safeFrom t'.root scope' = true ∧ TreePres t t' := by
  intro pst t scope pst' t' scope' h hinv hsafe
  simp only [setBranch] at h
  split at h
  · exact Except.noConfusion h
  · cases hGS : t.root.getPath scope with
    | none => simp only [hGS] at h; exact Except.noConfusion h
    | some scopedNode =>
      simp only [hGS] at h
      cases hI1 : t.insertAt scope .Assign with
      | none => simp only [hI1] at h; exact Except.noConfusion h
      | some pr1 =>
        obtain ⟨tree1, assignPath⟩ := pr1
        simp only [hI1] at h
        obtain ⟨hinv1, hsafeAP, hpres1⟩ :=
          tree_insert_safe t scope .Assign tree1 assignPath hinv hsafe rfl hI1
        have hAP : assignPath = scope ++ [scopedNode.nodes.length] :=
          tree_insertAt_path t scope .Assign tree1 assignPath scopedNode hinv.1 hGS hI1
        cases hI2 : tree1.insertAt assignPath (.Identifier pst.step.token.value) with
        | none => simp only [hI2] at h; exact Except.noConfusion h
        | some pr2 =>
          obtain ⟨tree2, path2⟩ := pr2
          simp only [hI2] at h
          obtain ⟨hinv2, _, hpres2⟩ :=
            tree_insert_safe tree1 assignPath (.Identifier pst.step.token.value)
              tree2 path2 hinv1 hsafeAP rfl hI2
          have hsafeAP2 : safeFrom tree2.root assignPath = true := hpres2 assignPath hsafeAP
          split at h
          · split at h
            · -- Meta.FUN
              split at h
              · cases hFP : funParamLoop fuel pst.step.step.step.step.step [] [] 1 with
                | error e => simp only [hFP] at h; exact Except.noConfusion h
                | ok pr3 =>
                  obtain ⟨pst6, pr4⟩ := pr3
                  obtain ⟨params, param_types⟩ := pr4
                  simp only [hFP] at h
                  split at h
                  · split at h
                    · exact Except.noConfusion h
                    · cases hGA : tree2.root.getPath assignPath with
                      | none => simp only [hGA] at h; exact Except.noConfusion h
                      | some assignNode =>
                        simp only [hGA] at h
                        cases hI3 : tree2.insertAt assignPath
                            (.FunctionContainer params param_types
                              [.Typ pst6.step.token.value]) with
                        | none => simp only [hI3] at h; exact Except.noConfusion h
                        | some pr5 =>
                          obtain ⟨tree3, fcPath⟩ := pr5
                          simp only [hI3] at h
                          obtain ⟨hinv3, hsafeFC, hpres3⟩ :=
                            tree_insert_safe tree2 assignPath
                              (.FunctionContainer params param_types
                                [.Typ pst6.step.token.value])
                              tree3 fcPath hinv2 hsafeAP2 rfl hI3
                          have hFC : fcPath = assignPath ++ [assignNode.nodes.length] :=
                            tree_insertAt_path tree2 assignPath
                              (.FunctionContainer params param_types
                                [.Typ pst6.step.token.value])
                              tree3 fcPath assignNode hinv2.1 hGA hI3
                          have hS2 : (scope ++ [scopedNode.nodes.length]) ++
                              [assignNode.nodes.length] = fcPath := by
                            rw [hFC, hAP]
                          cases hBody : bodyLoop fuel pst6.step.step.step tree3
                              ((scope ++ [scopedNode.nodes.length]) ++
                                [assignNode.nodes.length]) 1 with
                          | error e => simp only [hBody] at h; exact Except.noConfusion h
                          | ok pr6 =>
                            obtain ⟨pst10, pr7⟩ := pr6
                            obtain ⟨tree4, scope3⟩ := pr7
                            simp only [hBody] at h
                            obtain ⟨hinv4, hsafe3, hpres4⟩ :=
                              IH.2.2.2.2.2.1 pst6.step.step.step tree3
                                ((scope ++ [scopedNode.nodes.length]) ++
                                  [assignNode.nodes.length]) 1
                                pst10 tree4 scope3 hBody hinv3
                                (by rw [hS2]; exact hsafeFC)
                            cases hB : pst10.back with
                            | none => simp only [hB] at h; exact Except.noConfusion h
                            | some pst11 =>
                              simp only [hB] at h
                              injection h with h
                              injection h with h1 h
                              injection h with h2 h3
                              subst h1; subst h2; subst h3
                              exact ⟨hinv4,
                                safeFrom_dropLast _ _ (safeFrom_dropLast _ _ hsafe3),
                                fun r hr => hpres4 r (hpres3 r (hpres2 r (hpres1 r hr)))⟩
                  · exact Except.noConfusion h
              · injection h with h
                injection h with h1 h
                injection h with h2 h3
                subst h1; subst h2; subst h3
                refine ⟨hinv2, ?_, fun r hr => hpres2 r (hpres1 r hr)⟩
                rw [← hAP]
                exact hsafeAP2
            · -- any non-FUN category: an expression
              cases hE : buildExpr fuel pst.step.step.step tree2 assignPath with
              | error e => simp only [hE] at h; exact Except.noConfusion h
              | ok pr3 =>
                obtain ⟨pst4, tree3⟩ := pr3
                simp only [hE] at h
                obtain ⟨hinv3, hpres3⟩ :=
                  IH.2.2.2.2.2.2.1 pst.step.step.step tree2 assignPath pst4 tree3 hE
                    hinv2 hsafeAP2
                injection h with h
                injection h with h1 h
                injection h with h2 h3
                subst h1; subst h2; subst h3
                refine ⟨hinv3, ?_, fun r hr => hpres3 r (hpres2 r (hpres1 r hr))⟩
                apply safeFrom_dropLast
                rw [← hAP]
                exact hpres3 assignPath hsafeAP2
          · injection h with h
            injection h with h1 h
            injection h with h2 h3
            subst h1; subst h2; subst h3
            refine ⟨hinv2, ?_, fun r hr => hpres2 r (hpres1 r hr)⟩
            rw [← hAP]
            exact hsafeAP2

theorem step_buildTree (fuel : Nat) (IH : PInv fuel) :
    ∀ pst t scope pst' t' scope',
    buildTree (fuel + 1) pst t scope = .ok (pst', t', scope') →
    TreeInv t → safeFrom t.root scope = true →
    TreeInv t' ∧ safeFrom t'.root scope' = true ∧ TreePres t t' := by
  intro pst t scope pst' t' scope' h hinv hsafe
  simp only [buildTree] at h
  split at h
  · -- Meta.KEY
    split at h
    · exact IH.1 pst t scope pst' t' scope' h hinv hsafe
    · split at h
      · exact IH.2.2.1 pst t scope pst' t' scope' h hinv hsafe
      · split at h
        · exact IH.2.2.2.1 pst t scope pst' t' scope' h hinv hsafe
        · split at h
          · cases hI : t.insertAt scope .Return with
            | none => simp only [hI] at h; exact Except.noConfusion h
            | some pr =>
              obtain ⟨tree1, retPath⟩ := pr
              simp only [hI] at h
              obtain ⟨hinv1, hsafeRP, hpres1⟩ :=
                tree_insert_safe t scope .Return tree1 retPath hinv hsafe rfl hI
              cases hE : buildExpr fuel pst.step tree1 retPath with
              | error e => simp only [hE] at h; exact Except.noConfusion h
              | ok pr2 =>
                obtain ⟨pst2, tree2⟩ := pr2
                simp only [hE] at h
                obtain ⟨hinv2, hpres2⟩ :=
                  IH.2.2.2.2.2.2.1 pst.step tree1 retPath pst2 tree2 hE hinv1 hsafeRP
                injection h with h
                injection h with h1 h
                injection h with h2 h3
                subst h1; subst h2; subst h3
                exact ⟨hinv2, hpres2 scope (hpres1 scope hsafe),
                  fun r hr => hpres2 r (hpres1 r hr)⟩
          · injection h with h
            injection h with h1 h
            injection h with h2 h3
            subst h1; subst h2; subst h3
            exact ⟨hinv, hsafe, fun r hr => hr⟩
  · -- Meta.TXT
    cases hI : t.insertAt scope (.Text pst.token.value) with
    | none => simp only [hI] at h; exact Except.noConfusion h
    | some pr =>
      obtain ⟨tree1, path1⟩ := pr
      simp only [hI] at h
      obtain ⟨hinv1, _, hpres1⟩ :=
        tree_insert_safe t scope (.Text pst.token.value) tree1 path1 hinv hsafe rfl hI
      injection h with h
      injection h with h1 h
      injection h with h2 h3
      subst h1; subst h2; subst h3
      exact ⟨hinv1, hpres1 scope hsafe, hpres1⟩
  · -- Meta.REF
    cases hE : buildExpr fuel pst t scope with
    | error e => simp only [hE] at h; exact Except.noConfusion h
    | ok pr =>
      obtain ⟨pst1, tree1⟩ := pr
      simp only [hE] at h
      obtain ⟨hinv1, hpres1⟩ := IH.2.2.2.2.2.2.1 pst t scope pst1 tree1 hE hinv hsafe
      injection h with h
      injection h with h1 h
      injection h with h2 h3
      subst h1; subst h2; subst h3
      exact ⟨hinv1, hpres1 scope hsafe, hpres1⟩
  · -- Meta.TYP
    cases hI : t.insertAt scope (.Typ pst.token.value) with
    | none => simp only [hI] at h; exact Except.noConfusion h
    | some pr =>
      obtain ⟨tree1, path1⟩ := pr
      simp only [hI] at h
      obtain ⟨hinv1, _, hpres1⟩ :=
        tree_insert_safe t scope (.Typ pst.token.value) tree1 path1 hinv hsafe rfl hI
      injection h with h
      injection h with h1 h
      injection h with h2 h3
      subst h1; subst h2; subst h3
      exact ⟨hinv1, hpres1 scope hsafe, hpres1⟩
  · injection h with h
    injection h with h1 h
    injection h with h2 h3
    subst h1; subst h2; subst h3
    exact ⟨hinv, hsafe, fun r hr => hr⟩

theorem step_parse (fuel : Nat) (IH : PInv fuel) :
    ∀ pst t scope t',
    parseLoop (fuel + 1) pst t scope = .ok t' →
    TreeInv t → safeFrom t.root scope = true →
    nodeWS t'.root = true := by
  intro pst t scope t' h hinv hsafe
  simp only [parseLoop] at h
  split at h
  · injection h with h
    subst h
    exact hinv.2
  · cases hT : buildTree fuel pst t scope with
    | error e => simp only [hT] at h; exact Except.noConfusion h
    | ok pr =>
      obtain ⟨pst1, pr2⟩ := pr
      obtain ⟨tree1, scope1⟩ := pr2
      simp only [hT] at h
      obtain ⟨hinv1, hsafe1, _⟩ :=
        IH.2.2.2.2.2.2.2.2.1 pst t scope pst1 tree1 scope1 hT hinv hsafe
      exact IH.2.2.2.2.2.2.2.2.2 pst1.step tree1 scope1 t' h hinv1 hsafe1

/-- The parser invariant holds at every fuel. -/
theorem pinv_all : ∀ fuel, PInv fuel
  | 0 => pinv_zero
  | fuel + 1 =>
    have IH := pinv_all fuel
    ⟨step_declare fuel IH, step_decltype fuel IH, step_set fuel IH, step_while fuel IH,
     step_guard fuel IH, step_body fuel IH, step_buildExpr fuel IH, step_arg fuel IH,
     step_buildTree fuel IH, step_parse fuel IH⟩

/-- C5: counterexample.  The token stream `declare x` (no `as` clause) is
accepted by the parser, and the `Declare` node of the resulting tree - found at
path `[0]` - has exactly one child, not two: the claim "every Declare node has
exactly two children, the first an Identifier and the second a Type" is false
for this accepted parse. -/
theorem parser_accepts_one_child_declare :
    parseTokens 10 [⟨"declare", Meta.KEY⟩, ⟨"x", Meta.REF⟩] =
      .ok ⟨.mk 0 .Main [.mk 0 .Declare [.mk 0 (.Identifier "x") []]]⟩ ∧
    (Node.getPath (.mk 0 .Main [.mk 0 .Declare [.mk 0 (.Identifier "x") []]])
        [0]).map (fun m => (m.data, m.nodes.length)) = some (Data.Declare, 1) :=
  ⟨rfl, rfl⟩

/-- C5 (amended): for every token stream accepted by the parser, every
`Declare` node of the resulting tree is well-shaped (`nodeWS`): it has one or
two children, the first an `Identifier`, and when a second child is present it
is a `Type` node all of whose children are `Type` nodes (the element types of
a list type). -/
theorem parser_declare_shape (fuel : Nat) (tokens : List Token) (t : Tree)
    (h : parseTokens fuel tokens = .ok t) : nodeWS t.root = true := by
  cases tokens with
  | nil => exact Except.noConfusion h
  | cons t0 rest =>
    have h' : parseLoop fuel ⟨t0 :: rest, 0, t0, false⟩ Tree.new [] = .ok t := h
    exact (pinv_all fuel).2.2.2.2.2.2.2.2.2 ⟨t0 :: rest, 0, t0, false⟩ Tree.new [] t h'
      ⟨rfl, rfl⟩ rfl

/-- C5: witness for the amended theorem at the accepted stream
`declare x as integer`. -/
theorem parser_declare_shape_witness :
    parseTokens 10 [⟨"declare", Meta.KEY⟩, ⟨"x", Meta.REF⟩, ⟨"as", Meta.KEY⟩,
        ⟨"integer", Meta.TYP⟩] =
      .ok ⟨.mk 0 .Main [.mk 0 .Declare
        [.mk 0 (.Identifier "x") [], .mk 1 (.Typ "integer") []]]⟩ ∧
    nodeWS (Node.mk 0 .Main [.mk 0 .Declare
        [.mk 0 (.Identifier "x") [], .mk 1 (.Typ "integer") []]]) = true :=
  ⟨rfl, parser_declare_shape 10
    [⟨"declare", Meta.KEY⟩, ⟨"x", Meta.REF⟩, ⟨"as", Meta.KEY⟩, ⟨"integer", Meta.TYP⟩]
    ⟨.mk 0 .Main [.mk 0 .Declare
      [.mk 0 (.Identifier "x") [], .mk 1 (.Typ "integer") []]]⟩ rfl⟩

end Kraber
